import Mathlib

/-
Verification of the BadgerDB buffer manager (src/BufMgr/src/buffer.cpp).

The state of `BufMgr` (frame descriptor table, buffer pool, hash index,
clock hand) is embedded as a Lean structure, and each public operation of
buffer.cpp is translated into a pure function returning the operation's
outcome, the new state of the backing files, the new manager state, and
the list of calls made to the `File` collaborator.  C++ exceptions are
`Except.error` results that carry the state as mutated so far, matching
the way an exception propagates out of a partially executed C++ method.
The clock-algorithm loop of `allocBuf` is written with explicit fuel; a
`none` result means the fuel ran out, never a behaviour of the program.
-/

set_option maxHeartbeats 1000000

namespace BadgerDB

/-- A disk page: its `page_number` plus an abstract byte payload. -/
structure Page where
  pageNo : Nat
  data : Nat
deriving DecidableEq

/-- Frame descriptor.  Modelled from the spec: `BufDesc` of buffer.h, which
is not under src/ (spec sections 3 and 4.1).  `file = none` models a null
file pointer; file handles are identified by a `Nat` token (pointer
identity). -/
structure BufDesc where
  frameNo : Nat
  file : Option Nat
  pageNo : Nat
  valid : Bool
  refbit : Bool
  dirty : Bool
  pinCnt : Nat
deriving DecidableEq

/-- Modelled from the spec: `BufDesc::Clear` (buffer.h is not under src/):
resets the frame to the invalid initial state (spec section 4.1). -/
def BufDesc.Clear (b : BufDesc) : BufDesc :=
  { b with file := none, pageNo := 0, valid := false, refbit := false,
           dirty := false, pinCnt := 0 }

/-- Modelled from the spec: `BufDesc::Set` (buffer.h is not under src/):
`set(file, page_id)` gives `valid = true`, `pin_count = 1`,
`ref_bit = true`, `dirty = false` (spec section 4.1). -/
def BufDesc.Set (b : BufDesc) (f p : Nat) : BufDesc :=
  { b with file := some f, pageNo := p, valid := true, refbit := true,
           dirty := false, pinCnt := 1 }

/-- Default frame descriptor, used as the `getD` fallback. -/
def d0 : BufDesc := ⟨0, none, 0, false, false, false, 0⟩

/-- Default page, used as the `getD` fallback. -/
def p0 : Page := ⟨0, 0⟩

/-- The hash index as an association list from `(file, page_id)` to
`frame_id`.  Modelled from the spec: `BufHashTbl` (bufHashTbl.cpp is not
under src/), spec section 4.2. -/
abbrev Hash := List ((Nat × Nat) × Nat)

/-- Modelled from the spec: `BufHashTbl::lookup`; `none` is the
`HashNotFoundException` outcome. -/
def hashLookup (h : Hash) (f p : Nat) : Option Nat :=
  (h.find? (fun e => e.1 == (f, p))).map (fun e => e.2)

/-- Modelled from the spec: `BufHashTbl::insert` (the caller guarantees the
key is not already present). -/
def hashInsert (h : Hash) (f p fid : Nat) : Hash :=
  ((f, p), fid) :: h

/-- Modelled from the spec: `BufHashTbl::remove`; `none` is the
`HashNotFoundException` outcome. -/
def hashRemove (h : Hash) (f p : Nat) : Option Hash :=
  if (h.find? (fun e => e.1 == (f, p))).isSome then
    some (h.filter (fun e => e.1 != (f, p)))
  else none

/-- The backing files, as one association list from `(file, page_id)` to
page contents.  Modelled from the spec: the `File` collaborator (spec
section 6) is not under src/. -/
structure World where
  disk : List ((Nat × Nat) × Page)
deriving DecidableEq

/-- Modelled from the spec: `File::readPage`; `none` is the invalid-page
failure. -/
def World.findPage (w : World) (f p : Nat) : Option Page :=
  (w.disk.find? (fun e => e.1 == (f, p))).map (fun e => e.2)

/-- Modelled from the spec: `File::writePage`, a synchronous durable write
keyed by the page's own `page_number`. -/
def World.writePageF (w : World) (f : Nat) (pg : Page) : World :=
  ⟨((f, pg.pageNo), pg) :: w.disk.filter (fun e => e.1 != (f, pg.pageNo))⟩

/-- Largest page id currently allocated in file `f`. -/
def World.maxPid (w : World) (f : Nat) : Nat :=
  w.disk.foldr (fun e m => if e.1.1 = f then max e.1.2 m else m) 0

/-- Modelled from the spec: `File::allocatePage` assigns a new unique
page id within the file and writes the fresh empty page. -/
def World.allocatePageF (w : World) (f : Nat) : Page × World :=
  (⟨w.maxPid f + 1, 0⟩, ⟨((f, w.maxPid f + 1), ⟨w.maxPid f + 1, 0⟩) :: w.disk⟩)

/-- Modelled from the spec: `File::deletePage` removes a page from the
file. -/
def World.deletePageF (w : World) (f p : Nat) : World :=
  ⟨w.disk.filter (fun e => e.1 != (f, p))⟩

/-- State of a `BufMgr` object: the fields of buffer.h's `BufMgr`,
with the two parallel arrays as lists. -/
structure St where
  numBufs : Nat
  bufDescTable : List BufDesc
  bufPool : List Page
  hashTable : Hash
  clockHand : Nat
deriving DecidableEq

/-- Calls made to the `File` collaborator and to `BufHashTbl::remove`,
recorded in program order. -/
inductive Ev where
  | writeP : Nat → Page → Ev
  | readP : Nat → Nat → Ev
  | allocP : Nat → Nat → Ev
  | deleteP : Nat → Nat → Ev
  | hRemove : Nat → Nat → Ev
deriving DecidableEq

/-- The exceptions of buffer.cpp.  `nullFile` marks the dereference of a
null `file` pointer by `allocBuf` on a valid frame, which is undefined
behaviour in the C++ source and unreachable from consistent states. -/
inductive BufErr where
  | bufferExceeded
  | pageNotPinned
  | pagePinned
  | badBuffer
  | hashNotFound
  | invalidPage
  | nullFile
deriving DecidableEq

/-- `BufMgr::advanceClock` (buffer.cpp lines 76-79). -/
def advanceClock (s : St) : St :=
  { s with clockHand := (s.clockHand + 1) % s.numBufs }

/-- The while-loop of `BufMgr::allocBuf` (buffer.cpp lines 84-127),
including the trailing `Clear` and frame return.  `pinned` is the local
counter of pinned-frame observations (never reset, exactly as in the
source); `fuel` bounds the iteration count. -/
def allocBufLoop (w : World) (s : St) (pinned fuel : Nat) :
    Option (Except BufErr Nat × World × St × List Ev) :=
  match fuel with
  | 0 => none
  | Nat.succ fuel =>
    let b := s.bufDescTable.getD s.clockHand d0
    if b.valid then
      if b.refbit then
        allocBufLoop w
          (advanceClock { s with
            bufDescTable := s.bufDescTable.set s.clockHand { b with refbit := false } })
          pinned fuel
      else if b.pinCnt ≠ 0 then
        if pinned + 1 = s.numBufs then
          some (Except.error BufErr.bufferExceeded, w, s, [])
        else
          allocBufLoop w (advanceClock s) (pinned + 1) fuel
      else
        match b.file with
        | none => some (Except.error BufErr.nullFile, w, s, [])
        | some f =>
          let pg := s.bufPool.getD s.clockHand p0
          let w1 := if b.dirty then w.writePageF f pg else w
          let s1 := if b.dirty then
              { s with bufDescTable := s.bufDescTable.set s.clockHand { b with dirty := false } }
            else s
          let tr1 : List Ev := if b.dirty then [Ev.writeP f pg] else []
          match hashRemove s1.hashTable f b.pageNo with
          | none => some (Except.error BufErr.hashNotFound, w1, s1, tr1)
          | some h =>
            some (Except.ok s.clockHand, w1,
              { s1 with
                hashTable := h
                bufDescTable := s1.bufDescTable.set s.clockHand b.Clear },
              tr1 ++ [Ev.hRemove f b.pageNo])
    else
      some (Except.ok s.clockHand, w,
        { s with bufDescTable := s.bufDescTable.set s.clockHand b.Clear }, [])

/-- `BufMgr::allocBuf` (buffer.cpp lines 81-127): `pinned = 0`, one
`advanceClock`, then the loop. -/
def allocBuf (w : World) (s : St) (fuel : Nat) :
    Option (Except BufErr Nat × World × St × List Ev) :=
  allocBufLoop w (advanceClock s) 0 fuel

/-- `BufMgr::readPage` (buffer.cpp lines 129-158).  The returned frame id
stands for the returned `Page*` (`&bufPool[frameId]`). -/
def readPage (w : World) (s : St) (f pid : Nat) (fuel : Nat) :
    Option (Except BufErr Nat × World × St × List Ev) :=
  match hashLookup s.hashTable f pid with
  | some frameId =>
    let b := s.bufDescTable.getD frameId d0
    some (Except.ok frameId, w,
      { s with bufDescTable :=
          s.bufDescTable.set frameId { b with refbit := true, pinCnt := b.pinCnt + 1 } },
      [])
  | none =>
    match allocBuf w s fuel with
    | none => none
    | some (Except.error e, w1, s1, tr1) => some (Except.error e, w1, s1, tr1)
    | some (Except.ok frameId, w1, s1, tr1) =>
      match w1.findPage f pid with
      | none => some (Except.error BufErr.invalidPage, w1, s1, tr1)
      | some pg =>
        some (Except.ok frameId, w1,
          { s1 with
            bufPool := s1.bufPool.set frameId pg
            hashTable := hashInsert s1.hashTable f pid frameId
            bufDescTable :=
              s1.bufDescTable.set frameId ((s1.bufDescTable.getD frameId d0).Set f pid) },
          tr1 ++ [Ev.readP f pid])

/-- `BufMgr::unPinPage` (buffer.cpp lines 160-185). -/
def unPinPage (w : World) (s : St) (f pid : Nat) (dirty : Bool) :
    Except BufErr Unit × World × St × List Ev :=
  match hashLookup s.hashTable f pid with
  | none => (Except.ok (), w, s, [])
  | some framdId =>
    let b := s.bufDescTable.getD framdId d0
    if b.pinCnt = 0 then (Except.error BufErr.pageNotPinned, w, s, [])
    else
      let b1 := { b with pinCnt := b.pinCnt - 1 }
      (Except.ok (), w,
        { s with bufDescTable :=
            s.bufDescTable.set framdId (if dirty then { b1 with dirty := true } else b1) },
        [])

/-- The `for` loop of `BufMgr::flushFile` (buffer.cpp lines 189-218),
scanning frames `i, i+1, ...`; the second `Nat` is the number of frames
left to scan. -/
def flushFileLoop (f : Nat) : World → St → Nat → Nat →
    Except BufErr Unit × World × St × List Ev
  | w, s, _, 0 => (Except.ok (), w, s, [])
  | w, s, i, Nat.succ k =>
    let b := s.bufDescTable.getD i d0
    if b.file = some f then
      if b.pinCnt ≠ 0 then (Except.error BufErr.pagePinned, w, s, [])
      else if b.valid = false then (Except.error BufErr.badBuffer, w, s, [])
      else
        let w1 := if b.dirty then w.writePageF f (s.bufPool.getD i p0) else w
        let s1 := if b.dirty then
            { s with bufDescTable := s.bufDescTable.set i { b with dirty := false } }
          else s
        let tr1 : List Ev := if b.dirty then [Ev.writeP f (s.bufPool.getD i p0)] else []
        match hashRemove s1.hashTable f b.pageNo with
        | none => (Except.error BufErr.hashNotFound, w1, s1, tr1)
        | some h =>
          let s2 := { s1 with
            hashTable := h
            bufDescTable := s1.bufDescTable.set i b.Clear }
          let r := flushFileLoop f w1 s2 (i + 1) k
          (r.1, r.2.1, r.2.2.1, tr1 ++ Ev.hRemove f b.pageNo :: r.2.2.2)
    else flushFileLoop f w s (i + 1) k

/-- `BufMgr::flushFile` (buffer.cpp lines 187-219). -/
def flushFile (w : World) (s : St) (f : Nat) :
    Except BufErr Unit × World × St × List Ev :=
  flushFileLoop f w s 0 s.numBufs

/-- `BufMgr::allocPage` (buffer.cpp lines 221-238): `allocatePage` on the
file strictly before `allocBuf`.  The result pair is `(pageNo, frameId)`. -/
def allocPage (w : World) (s : St) (f : Nat) (fuel : Nat) :
    Option (Except BufErr (Nat × Nat) × World × St × List Ev) :=
  let pw := w.allocatePageF f
  match allocBuf pw.2 s fuel with
  | none => none
  | some (Except.error e, w1, s1, tr1) =>
    some (Except.error e, w1, s1, Ev.allocP f pw.1.pageNo :: tr1)
  | some (Except.ok frameId, w1, s1, tr1) =>
    some (Except.ok (pw.1.pageNo, frameId), w1,
      { s1 with
        bufPool := s1.bufPool.set frameId pw.1
        hashTable := hashInsert s1.hashTable f pw.1.pageNo frameId
        bufDescTable :=
          s1.bufDescTable.set frameId
            ((s1.bufDescTable.getD frameId d0).Set f pw.1.pageNo) },
      Ev.allocP f pw.1.pageNo :: tr1)

/-- `BufMgr::disposePage` (buffer.cpp lines 240-259). -/
def disposePage (w : World) (s : St) (f pid : Nat) :
    Except BufErr Unit × World × St × List Ev :=
  match hashLookup s.hashTable f pid with
  | some frameId =>
    match hashRemove s.hashTable f pid with
    | none => (Except.error BufErr.hashNotFound, w, s, [])
    | some h =>
      (Except.ok (), w.deletePageF f pid,
        { s with
          hashTable := h
          bufDescTable := s.bufDescTable.set frameId ((s.bufDescTable.getD frameId d0).Clear) },
        [Ev.hRemove f pid, Ev.deleteP f pid])
  | none => (Except.ok (), w.deletePageF f pid, s, [Ev.deleteP f pid])

/-- The `BufMgr` constructor (buffer.cpp lines 38-55). -/
def initSt (bufs : Nat) : St :=
  { numBufs := bufs
    bufDescTable := (List.range bufs).map (fun i => { d0 with frameNo := i })
    bufPool := List.replicate bufs p0
    hashTable := []
    clockHand := bufs - 1 }

/-- A public API call, for driving concrete executions. -/
inductive Op where
  | rd : Nat → Nat → Op
  | al : Nat → Op
  | up : Nat → Nat → Bool → Op
  | fl : Nat → Op
  | dp : Nat → Nat → Op
deriving DecidableEq

/-- Run one public API call, keeping the (world, state) pair whether the
call succeeds or raises (a raised exception leaves its mutations behind,
exactly as in C++). -/
def runOp (fuel : Nat) (w : World) (s : St) : Op → Option (World × St)
  | Op.rd f p => (readPage w s f p fuel).map (fun r => (r.2.1, r.2.2.1))
  | Op.al f => (allocPage w s f fuel).map (fun r => (r.2.1, r.2.2.1))
  | Op.up f p dirt => some ((unPinPage w s f p dirt).2.1, (unPinPage w s f p dirt).2.2.1)
  | Op.fl f => some ((flushFile w s f).2.1, (flushFile w s f).2.2.1)
  | Op.dp f p => some ((disposePage w s f p).2.1, (disposePage w s f p).2.2.1)

/-- Run a list of public API calls in order. -/
def runOps (fuel : Nat) : World × St → List Op → Option (World × St)
  | p, [] => some p
  | (w, s), op :: rest =>
    match runOp fuel w s op with
    | none => none
    | some (w', s') => runOps fuel (w', s') rest

/-- One public-API transition between (world, manager-state) pairs. -/
inductive Step : World × St → World × St → Prop where
  | rd : ∀ w s f p fuel r, readPage w s f p fuel = some r → Step (w, s) (r.2.1, r.2.2.1)
  | al : ∀ w s f fuel r, allocPage w s f fuel = some r → Step (w, s) (r.2.1, r.2.2.1)
  | up : ∀ w s f p dirt, Step (w, s) ((unPinPage w s f p dirt).2.1, (unPinPage w s f p dirt).2.2.1)
  | fl : ∀ w s f, Step (w, s) ((flushFile w s f).2.1, (flushFile w s f).2.2.1)
  | dp : ∀ w s f p, Step (w, s) ((disposePage w s f p).2.1, (disposePage w s f p).2.2.1)

/-- States reachable through the public API from a freshly constructed
manager of `n` frames against an initial file system `w0`. -/
def Reachable (w0 : World) (n : Nat) (p : World × St) : Prop :=
  Relation.ReflTransGen Step (w0, initSt n) p

/-- Per-frame invariants of spec section 8:  `frame_no` equals the index,
`dirty` implies `valid`, `pin_count > 0` implies `valid`. -/
def frameInv (s : St) : Prop :=
  ∀ i, i < s.numBufs →
    (s.bufDescTable.getD i d0).frameNo = i ∧
    ((s.bufDescTable.getD i d0).dirty = true → (s.bufDescTable.getD i d0).valid = true) ∧
    ((s.bufDescTable.getD i d0).pinCnt ≠ 0 → (s.bufDescTable.getD i d0).valid = true)

/-- Hash-index consistency of spec section 8: every entry refers to a
valid frame with matching file and page id; every valid frame has its
entry; keys are unique. -/
def hashConsistent (s : St) : Prop :=
  (∀ e ∈ s.hashTable, e.2 < s.numBufs ∧
      (s.bufDescTable.getD e.2 d0).valid = true ∧
      (s.bufDescTable.getD e.2 d0).file = some e.1.1 ∧
      (s.bufDescTable.getD e.2 d0).pageNo = e.1.2) ∧
  (∀ i, i < s.numBufs → (s.bufDescTable.getD i d0).valid = true →
      (s.bufDescTable.getD i d0).file.isSome = true ∧
      (((s.bufDescTable.getD i d0).file.getD 0, (s.bufDescTable.getD i d0).pageNo), i)
        ∈ s.hashTable) ∧
  (s.hashTable.map Prod.fst).Nodup

/-- The inductive invariant: structural bounds, the per-frame and hash
invariants, and the coupling that every buffered page exists on disk. -/
def Inv (w : World) (s : St) : Prop :=
  s.bufDescTable.length = s.numBufs ∧
  s.bufPool.length = s.numBufs ∧
  s.clockHand < s.numBufs ∧
  frameInv s ∧
  hashConsistent s ∧
  (∀ e ∈ s.hashTable, e.1 ∈ w.disk.map Prod.fst)

/-- The invariants claimed for every API-reachable state: the per-frame
conditions, the hash-entry/frame matching, and at most one resident frame
per `(file, page_id)`. -/
def publicInv (s : St) : Prop :=
  frameInv s ∧
  (∀ e ∈ s.hashTable, e.2 < s.numBufs ∧
      (s.bufDescTable.getD e.2 d0).valid = true ∧
      (s.bufDescTable.getD e.2 d0).file = some e.1.1 ∧
      (s.bufDescTable.getD e.2 d0).pageNo = e.1.2) ∧
  (∀ i, i < s.numBufs → ∀ j, j < s.numBufs →
      ((s.bufDescTable.getD i d0).valid = true ∧
       (s.bufDescTable.getD j d0).valid = true ∧
       (s.bufDescTable.getD i d0).file = (s.bufDescTable.getD j d0).file ∧
       (s.bufDescTable.getD i d0).pageNo = (s.bufDescTable.getD j d0).pageNo) →
      i = j)

/-- Frame `fid` holds page `(f, pid)`. -/
def resident (s : St) (f pid : Nat) : Prop :=
  ∃ i, i < s.numBufs ∧ (s.bufDescTable.getD i d0).valid = true ∧
    (s.bufDescTable.getD i d0).file = some f ∧ (s.bufDescTable.getD i d0).pageNo = pid

/-- Forget a frame's ref bit (two frames equal under `eraseRef` differ at
most in `refbit`). -/
def eraseRef (b : BufDesc) : BufDesc := { b with refbit := false }

/-- Concrete file system: file 0 holds pages 1-4. -/
def c1w : World := ⟨[((0, 1), ⟨1, 11⟩), ((0, 2), ⟨2, 12⟩), ((0, 3), ⟨3, 13⟩), ((0, 4), ⟨4, 14⟩)]⟩

/-- Concrete call sequence: read pages 1, 2, 3, unpin 3, read 4 (evicting 3),
unpin 4, leaving frames 0 and 1 pinned with clear ref bits and frame 2
unpinned with its ref bit set. -/
def c1ops : List Op := [Op.rd 0 1, Op.rd 0 2, Op.rd 0 3, Op.up 0 3 false,
                        Op.rd 0 4, Op.up 0 4 false]

/-- Concrete one-frame manager holding dirty page `(7, 3)`, unpinned. -/
def c3s : St := ⟨1, [⟨0, some 7, 3, true, false, true, 0⟩], [⟨3, 42⟩], [((7, 3), 0)], 0⟩

/-- Concrete file system for the dirty-eviction run. -/
def c3w : World := ⟨[((7, 3), ⟨3, 1⟩)]⟩

/-- Concrete file system holding only page `(0, 5)`. -/
def c4w : World := ⟨[((0, 5), ⟨5, 7⟩)]⟩

/-- Concrete one-frame manager with its only frame pinned. -/
def c5s : St := ⟨1, [⟨0, some 0, 1, true, false, false, 1⟩], [⟨1, 5⟩], [((0, 1), 0)], 0⟩

/-- Concrete file system holding only page `(0, 1)`. -/
def c5w : World := ⟨[((0, 1), ⟨1, 5⟩)]⟩

/-- The file system after `allocPage c5w c5s 0` has allocated page 2 and
then raised `BufferExceeded`. -/
def c5w' : World := ⟨[((0, 2), ⟨2, 0⟩), ((0, 1), ⟨1, 5⟩)]⟩

/-- Concrete one-frame manager holding page `(1, 4)` pinned twice, clean. -/
def c6s : St := ⟨1, [⟨0, some 1, 4, true, true, false, 2⟩], [⟨4, 0⟩], [((1, 4), 0)], 0⟩

/-- Concrete two-frame manager owning pages `(1, 4)` (dirty) and `(1, 5)`
(clean), both unpinned. -/
def c7s : St := ⟨2, [⟨0, some 1, 4, true, false, true, 0⟩, ⟨1, some 1, 5, true, false, false, 0⟩],
                 [⟨4, 9⟩, ⟨5, 8⟩], [((1, 4), 0), ((1, 5), 1)], 1⟩

/-- Concrete file system for the flush run. -/
def c7w : World := ⟨[((1, 4), ⟨4, 0⟩), ((1, 5), ⟨5, 8⟩)]⟩

/-- Concrete file system after flushing file 1. -/
def c7w2 : World := ⟨[((1, 4), ⟨4, 9⟩), ((1, 5), ⟨5, 8⟩)]⟩

/-- Concrete manager state after flushing file 1. -/
def c7s2 : St := ⟨2, [⟨0, none, 0, false, false, false, 0⟩, ⟨1, none, 0, false, false, false, 0⟩],
                 [⟨4, 9⟩, ⟨5, 8⟩], [], 1⟩

/-- Concrete one-frame manager holding dirty page `(2, 6)` pinned three
times. -/
def c9s : St := ⟨1, [⟨0, some 2, 6, true, true, true, 3⟩], [⟨6, 1⟩], [((2, 6), 0)], 0⟩

/-- Concrete file system holding only page `(2, 6)`. -/
def c9w : World := ⟨[((2, 6), ⟨6, 1⟩)]⟩

/-- Concrete one-frame manager holding dirty page `(0, 1)`, unpinned. -/
def c10s : St := ⟨1, [⟨0, some 0, 1, true, false, true, 0⟩], [⟨1, 9⟩], [((0, 1), 0)], 0⟩

/-- Concrete file system holding only page `(0, 1)`. -/
def c10w : World := ⟨[((0, 1), ⟨1, 3⟩)]⟩

/-- Concrete file system after the dirty-eviction run. -/
def c3w2 : World := ⟨[((7, 3), ⟨3, 42⟩)]⟩

/-- Concrete manager state after the dirty-eviction run. -/
def c3s2 : St := ⟨1, [⟨0, none, 0, false, false, false, 0⟩], [⟨3, 42⟩], [], 0⟩

/-- Concrete manager state after the fresh-manager miss of page `(0, 5)`. -/
def c4s2 : St := ⟨1, [⟨0, some 0, 5, true, true, false, 1⟩], [⟨5, 7⟩], [((0, 5), 0)], 0⟩

/-- Concrete manager state after unpinning `(1, 4)` with the dirty flag. -/
def c6s2 : St := ⟨1, [⟨0, some 1, 4, true, true, true, 1⟩], [⟨4, 0⟩], [((1, 4), 0)], 0⟩

/-- Concrete manager state after disposing page `(2, 6)`. -/
def c9s2 : St := ⟨1, [⟨0, none, 0, false, false, false, 0⟩], [⟨6, 1⟩], [], 0⟩

/-- Concrete file system after the failed-read run. -/
def c10w2 : World := ⟨[((0, 1), ⟨1, 9⟩)]⟩

/-- Concrete manager state after the failed-read run. -/
def c10s2 : St := ⟨1, [⟨0, none, 0, false, false, false, 0⟩], [⟨1, 9⟩], [], 0⟩

/-! ### List helper lemmas -/

theorem getD_set_self (l : List α) (i : Nat) (a d : α) (h : i < l.length) :
    (l.set i a).getD i d = a := by
  induction l generalizing i with
  | nil => simp at h
  | cons x xs ih =>
    cases i with
    | zero => rfl
    | succ i => exact ih i (by simpa using h)

theorem getD_set_ne (l : List α) (i j : Nat) (a d : α) (hij : i ≠ j) :
    (l.set i a).getD j d = l.getD j d := by
  induction l generalizing i j with
  | nil => simp
  | cons x xs ih =>
    cases i with
    | zero =>
      cases j with
      | zero => exact absurd rfl hij
      | succ j => rfl
    | succ i =>
      cases j with
      | zero => rfl
      | succ j => exact ih i j (fun h => hij (by omega))

theorem getD_succ_cons (x : α) (xs : List α) (i : Nat) (d : α) :
    (x :: xs).getD (i + 1) d = xs.getD i d := rfl

/-! ### Hash index lemmas -/

theorem hashLookup_mem {h : Hash} {f p fid : Nat} (hl : hashLookup h f p = some fid) :
    ((f, p), fid) ∈ h := by
  unfold hashLookup at hl
  cases hfind : h.find? (fun e => e.1 == (f, p)) with
  | none => rw [hfind] at hl; cases hl
  | some e =>
    rw [hfind] at hl
    have hm := List.mem_of_find?_eq_some hfind
    have hp := List.find?_some hfind
    have he : e.1 = (f, p) := by simpa using hp
    obtain ⟨k, v⟩ := e
    simp only [Option.map_some'] at hl
    cases hl
    cases he
    exact hm

theorem hashLookup_eq_none {h : Hash} {f p : Nat} :
    hashLookup h f p = none ↔ ∀ e ∈ h, e.1 ≠ (f, p) := by
  unfold hashLookup
  simp [List.find?_eq_none]

theorem hashLookup_of_mem_nodup {h : Hash} (hn : (h.map Prod.fst).Nodup)
    {f p fid : Nat} (hm : ((f, p), fid) ∈ h) : hashLookup h f p = some fid := by
  induction h with
  | nil => cases hm
  | cons e t ih =>
    simp only [List.map_cons, List.nodup_cons] at hn
    rcases List.mem_cons.mp hm with he | ht
    · subst he
      unfold hashLookup
      rw [List.find?_cons_of_pos _ (by simp)]
      rfl
    · have hne : e.1 ≠ (f, p) := by
        intro hk
        exact hn.1 (hk ▸ List.mem_map_of_mem Prod.fst ht)
      unfold hashLookup at ih ⊢
      rw [List.find?_cons_of_neg _ (by simpa using hne)]
      exact ih hn.2 ht

theorem nodupKeys_eq {h : Hash} (hn : (h.map Prod.fst).Nodup)
    {k : Nat × Nat} {i j : Nat} (h1 : (k, i) ∈ h) (h2 : (k, j) ∈ h) : i = j := by
  have e1 := hashLookup_of_mem_nodup hn (f := k.1) (p := k.2) (by simpa using h1)
  have e2 := hashLookup_of_mem_nodup hn (f := k.1) (p := k.2) (by simpa using h2)
  rw [e1] at e2
  exact Option.some_injective _ e2

theorem mem_filter_keyne {h : Hash} {k : Nat × Nat} {e : (Nat × Nat) × Nat} :
    e ∈ h.filter (fun e => e.1 != k) ↔ e ∈ h ∧ e.1 ≠ k := by
  simp [List.mem_filter]

theorem hashRemove_eq_some {h : Hash} {f p : Nat} {h' : Hash}
    (hr : hashRemove h f p = some h') : h' = h.filter (fun e => e.1 != (f, p)) := by
  unfold hashRemove at hr
  split at hr
  · exact (Option.some_injective _ hr).symm
  · cases hr

theorem hashRemove_of_mem {h : Hash} {f p fid : Nat} (hm : ((f, p), fid) ∈ h) :
    hashRemove h f p = some (h.filter (fun e => e.1 != (f, p))) := by
  unfold hashRemove
  rw [if_pos]
  exact List.find?_isSome.mpr ⟨((f, p), fid), hm, by simp⟩

theorem hashLookup_filter_self {h : Hash} {f p : Nat} :
    hashLookup (h.filter (fun e => e.1 != (f, p))) f p = none := by
  rw [hashLookup_eq_none]
  intro e he
  exact (mem_filter_keyne.mp he).2

theorem hashLookup_none_of_subset {h h' : Hash} (hs : ∀ e ∈ h', e ∈ h) {f p : Nat}
    (hn : hashLookup h f p = none) : hashLookup h' f p = none := by
  rw [hashLookup_eq_none] at hn ⊢
  exact fun e he => hn e (hs e he)

/-! ### eraseRef lemmas -/

theorem eraseRef_fields {b b' : BufDesc} (h : eraseRef b = eraseRef b') :
    b.frameNo = b'.frameNo ∧ b.file = b'.file ∧ b.pageNo = b'.pageNo ∧
    b.valid = b'.valid ∧ b.dirty = b'.dirty ∧ b.pinCnt = b'.pinCnt := by
  cases b; cases b'
  simp [eraseRef] at h
  simp [h.1, h.2.1, h.2.2.1, h.2.2.2.1, h.2.2.2.2.1, h.2.2.2.2.2]

theorem eraseRef_Clear {b b' : BufDesc} (h : eraseRef b = eraseRef b') :
    b.Clear = b'.Clear := by
  have := (eraseRef_fields h).1
  simp [BufDesc.Clear, this]

theorem map_eraseRef_set (l : List BufDesc) (i : Nat) (b : BufDesc)
    (hb : eraseRef b = eraseRef (l.getD i d0)) :
    (l.set i b).map eraseRef = l.map eraseRef := by
  induction l generalizing i with
  | nil => simp
  | cons x xs ih =>
    cases i with
    | zero =>
      simp only [List.set, List.map_cons]
      rw [show eraseRef b = eraseRef x from hb]
    | succ i =>
      simp only [List.set, List.map_cons]
      rw [ih i hb]

/-! ### World disk-key lemmas -/

theorem disk_keys_writePageF {w : World} {f : Nat} {pg : Page} {k : Nat × Nat}
    (hk : k ∈ w.disk.map Prod.fst) : k ∈ (w.writePageF f pg).disk.map Prod.fst := by
  by_cases hkey : k = (f, pg.pageNo)
  · subst hkey
    simp [World.writePageF]
  · rcases List.mem_map.mp hk with ⟨e, he, hek⟩
    refine List.mem_map.mpr ⟨e, ?_, hek⟩
    simp only [World.writePageF]
    exact List.mem_cons_of_mem _ (List.mem_filter.mpr ⟨he, by simp [hek, hkey]⟩)

theorem disk_keys_allocatePageF {w : World} {f : Nat} {k : Nat × Nat}
    (hk : k ∈ w.disk.map Prod.fst) : k ∈ (w.allocatePageF f).2.disk.map Prod.fst := by
  simp only [World.allocatePageF, List.map_cons]
  exact List.mem_cons_of_mem _ hk

theorem maxPid_ge {w : World} {f p : Nat} (hk : (f, p) ∈ w.disk.map Prod.fst) :
    p ≤ w.maxPid f := by
  obtain ⟨d⟩ := w
  induction d with
  | nil => simp at hk
  | cons e t ih =>
    simp only [List.map_cons, List.mem_cons] at hk
    simp only [World.maxPid, List.foldr_cons]
    rcases hk with hk | hk
    · rw [← hk]
      simp
    · have := ih hk
      simp only [World.maxPid] at this
      split
      · exact le_trans this (le_max_right _ _)
      · exact this

theorem allocatePageF_fresh {w : World} {f : Nat} :
    (f, w.maxPid f + 1) ∉ w.disk.map Prod.fst := by
  intro hmem
  have := maxPid_ge hmem
  omega

/-! ### Invariant preservation helpers -/

theorem inv_advanceClock {w : World} {s : St} (hInv : Inv w s) : Inv w (advanceClock s) := by
  obtain ⟨hlen, hpool, hch, hfr, hhc, hdisk⟩ := hInv
  exact ⟨hlen, hpool, Nat.mod_lt _ (Nat.lt_of_le_of_lt (Nat.zero_le _) hch), hfr, hhc, hdisk⟩

theorem inv_world_keys {w w' : World} {s : St}
    (hk : ∀ k, k ∈ w.disk.map Prod.fst → k ∈ w'.disk.map Prod.fst)
    (hInv : Inv w s) : Inv w' s := by
  obtain ⟨hlen, hpool, hch, hfr, hhc, hdisk⟩ := hInv
  exact ⟨hlen, hpool, hch, hfr, hhc, fun e he => hk e.1 (hdisk e he)⟩

theorem inv_set_frame {w : World} {s : St} (hInv : Inv w s) (i : Nat) (hi : i < s.numBufs)
    (b' : BufDesc)
    (hfr : b'.frameNo = (s.bufDescTable.getD i d0).frameNo)
    (hfile : b'.file = (s.bufDescTable.getD i d0).file)
    (hpage : b'.pageNo = (s.bufDescTable.getD i d0).pageNo)
    (hvalid : b'.valid = (s.bufDescTable.getD i d0).valid)
    (hdv : b'.dirty = true → b'.valid = true)
    (hpv : b'.pinCnt ≠ 0 → b'.valid = true) :
    Inv w { s with bufDescTable := s.bufDescTable.set i b' } := by
  obtain ⟨hlen, hpool, hch, hfrI, ⟨hmatch, hres, hnodup⟩, hdisk⟩ := hInv
  have hilen : i < s.bufDescTable.length := hlen ▸ hi
  refine ⟨by simpa using hlen, hpool, hch, ?_, ⟨?_, ?_, hnodup⟩, hdisk⟩
  · intro j hj
    simp only at hj ⊢
    by_cases hji : j = i
    · subst hji
      rw [getD_set_self _ _ _ _ hilen]
      exact ⟨hfr.trans (hfrI j hj).1, hdv, hpv⟩
    · rw [getD_set_ne _ _ _ _ _ (fun h => hji h.symm)]
      exact hfrI j hj
  · intro e he
    simp only at he ⊢
    obtain ⟨h1, h2, h3, h4⟩ := hmatch e he
    by_cases hei : e.2 = i
    · rw [hei, getD_set_self _ _ _ _ hilen]
      rw [hei] at h1 h2 h3 h4
      exact ⟨h1, hvalid.trans h2, hfile.trans h3, hpage.trans h4⟩
    · rw [getD_set_ne _ _ _ _ _ (fun h => hei h.symm)]
      exact ⟨h1, h2, h3, h4⟩
  · intro j hj hv
    simp only at hj hv ⊢
    by_cases hji : j = i
    · subst hji
      rw [getD_set_self _ _ _ _ hilen] at hv ⊢
      rw [hvalid] at hv
      obtain ⟨hsome, hmem⟩ := hres j hj hv
      rw [hfile, hpage]
      exact ⟨hsome, hmem⟩
    · rw [getD_set_ne _ _ _ _ _ (fun h => hji h.symm)] at hv ⊢
      exact hres j hj hv

theorem inv_remove_clear {w : World} {s : St} (hInv : Inv w s) (i : Nat) (hi : i < s.numBufs)
    {f : Nat} {b : BufDesc} (hb : s.bufDescTable.getD i d0 = b)
    (hv : b.valid = true) (hf : b.file = some f) :
    Inv w { s with
      hashTable := s.hashTable.filter (fun e => e.1 != (f, b.pageNo))
      bufDescTable := s.bufDescTable.set i b.Clear } := by
  subst hb
  obtain ⟨hlen, hpool, hch, hfrI, ⟨hmatch, hres, hnodup⟩, hdisk⟩ := hInv
  have hilen : i < s.bufDescTable.length := hlen ▸ hi
  refine ⟨by simpa using hlen, hpool, hch, ?_, ⟨?_, ?_, ?_⟩, ?_⟩
  · intro j hj
    simp only at hj ⊢
    by_cases hji : j = i
    · subst hji
      rw [getD_set_self _ _ _ _ hilen]
      exact ⟨(hfrI j hj).1, by simp [BufDesc.Clear], by simp [BufDesc.Clear]⟩
    · rw [getD_set_ne _ _ _ _ _ (fun h => hji h.symm)]
      exact hfrI j hj
  · intro e he
    simp only at he ⊢
    obtain ⟨he1, hkey⟩ := mem_filter_keyne.mp he
    obtain ⟨h1, h2, h3, h4⟩ := hmatch e he1
    have hei : e.2 ≠ i := by
      intro hei
      rw [hei] at h3 h4
      rw [hf] at h3
      apply hkey
      have : e.1.1 = f := by injection h3.symm
      cases e with
      | mk k v => cases k with
        | mk a b =>
          simp only at this h4 ⊢
          rw [this, h4]
    rw [getD_set_ne _ _ _ _ _ (fun h => hei h.symm)]
    exact ⟨h1, h2, h3, h4⟩
  · intro j hj hvj
    simp only at hj hvj ⊢
    by_cases hji : j = i
    · subst hji
      rw [getD_set_self _ _ _ _ hilen] at hvj
      simp [BufDesc.Clear] at hvj
    · rw [getD_set_ne _ _ _ _ _ (fun h => hji h.symm)] at hvj ⊢
      obtain ⟨hsome, hmem⟩ := hres j hj hvj
      refine ⟨hsome, mem_filter_keyne.mpr ⟨hmem, ?_⟩⟩
      intro hkey
      obtain ⟨hsomei, hmemi⟩ := hres i hi hv
      have hkeyi : ((s.bufDescTable.getD i d0).file.getD 0) = f := by rw [hf]; rfl
      rw [hkeyi] at hmemi
      have hfp : ((s.bufDescTable.getD j d0).file.getD 0,
          (s.bufDescTable.getD j d0).pageNo) = (f, (s.bufDescTable.getD i d0).pageNo) := hkey
      rw [hfp] at hmem
      exact hji (nodupKeys_eq hnodup hmem hmemi)
  · exact (List.filter_sublist _).map Prod.fst |>.nodup hnodup
  · intro e he
    simp only at he ⊢
    exact hdisk e (mem_filter_keyne.mp he).1

theorem inv_install {w : World} {s : St} (hInv : Inv w s) (fid : Nat)
    (hfid : fid < s.numBufs) {f pid : Nat}
    (hinval : (s.bufDescTable.getD fid d0).valid = false)
    (hlk : hashLookup s.hashTable f pid = none)
    (hdk : (f, pid) ∈ w.disk.map Prod.fst) (pg : Page) :
    Inv w { s with
      bufPool := s.bufPool.set fid pg
      hashTable := hashInsert s.hashTable f pid fid
      bufDescTable := s.bufDescTable.set fid ((s.bufDescTable.getD fid d0).Set f pid) } := by
  obtain ⟨hlen, hpool, hch, hfrI, ⟨hmatch, hres, hnodup⟩, hdisk⟩ := hInv
  have hilen : fid < s.bufDescTable.length := hlen ▸ hfid
  have hkey : ∀ e ∈ s.hashTable, e.1 ≠ (f, pid) := hashLookup_eq_none.mp hlk
  have hnotfid : ∀ e ∈ s.hashTable, e.2 ≠ fid := by
    intro e he hefid
    obtain ⟨_, h2, _, _⟩ := hmatch e he
    rw [hefid] at h2
    rw [hinval] at h2
    cases h2
  refine ⟨by simpa using hlen, by simpa using hpool, hch, ?_, ⟨?_, ?_, ?_⟩, ?_⟩
  · intro j hj
    simp only at hj ⊢
    by_cases hji : j = fid
    · subst hji
      rw [getD_set_self _ _ _ _ hilen]
      exact ⟨(hfrI j hj).1, by simp [BufDesc.Set], by simp [BufDesc.Set]⟩
    · rw [getD_set_ne _ _ _ _ _ (fun h => hji h.symm)]
      exact hfrI j hj
  · intro e he
    simp only [hashInsert, List.mem_cons] at he
    rcases he with he | he
    · subst he
      simp only
      rw [getD_set_self _ _ _ _ hilen]
      exact ⟨hfid, by simp [BufDesc.Set], by simp [BufDesc.Set], by simp [BufDesc.Set]⟩
    · obtain ⟨h1, h2, h3, h4⟩ := hmatch e he
      simp only
      rw [getD_set_ne _ _ _ _ _ (fun h => hnotfid e he h.symm)]
      exact ⟨h1, h2, h3, h4⟩
  · intro j hj hvj
    simp only at hj hvj ⊢
    by_cases hji : j = fid
    · subst hji
      rw [getD_set_self _ _ _ _ hilen]
      refine ⟨by simp [BufDesc.Set], ?_⟩
      simp [BufDesc.Set, hashInsert]
    · rw [getD_set_ne _ _ _ _ _ (fun h => hji h.symm)] at hvj ⊢
      obtain ⟨hsome, hmem⟩ := hres j hj hvj
      exact ⟨hsome, List.mem_cons_of_mem _ hmem⟩
  · simp only [hashInsert, List.map_cons, List.nodup_cons]
    refine ⟨?_, hnodup⟩
    intro hmem
    rcases List.mem_map.mp hmem with ⟨e, he, hek⟩
    exact hkey e he hek
  · intro e he
    simp only [hashInsert, List.mem_cons] at he
    rcases he with he | he
    · subst he
      exact hdk
    · exact hdisk e he

theorem inv_clear_invalid {w : World} {s : St} (hInv : Inv w s) (i : Nat)
    (hi : i < s.numBufs) (hinval : (s.bufDescTable.getD i d0).valid = false) :
    Inv w { s with bufDescTable := s.bufDescTable.set i ((s.bufDescTable.getD i d0).Clear) } := by
  obtain ⟨hlen, hpool, hch, hfrI, ⟨hmatch, hres, hnodup⟩, hdisk⟩ := hInv
  have hilen : i < s.bufDescTable.length := hlen ▸ hi
  have hnoti : ∀ e ∈ s.hashTable, e.2 ≠ i := by
    intro e he hei
    obtain ⟨_, h2, _, _⟩ := hmatch e he
    rw [hei, hinval] at h2
    cases h2
  refine ⟨by simpa using hlen, hpool, hch, ?_, ⟨?_, ?_, hnodup⟩, hdisk⟩
  · intro j hj
    simp only at hj ⊢
    by_cases hji : j = i
    · subst hji
      rw [getD_set_self _ _ _ _ hilen]
      exact ⟨(hfrI j hj).1, by simp [BufDesc.Clear], by simp [BufDesc.Clear]⟩
    · rw [getD_set_ne _ _ _ _ _ (fun h => hji h.symm)]
      exact hfrI j hj
  · intro e he
    simp only at he ⊢
    rw [getD_set_ne _ _ _ _ _ (fun h => hnoti e he h.symm)]
    exact hmatch e he
  · intro j hj hvj
    simp only at hj hvj ⊢
    by_cases hji : j = i
    · subst hji
      rw [getD_set_self _ _ _ _ hilen] at hvj
      simp [BufDesc.Clear] at hvj
    · rw [getD_set_ne _ _ _ _ _ (fun h => hji h.symm)] at hvj ⊢
      exact hres j hj hvj

/-! ### Invariant preservation through the allocBuf loop -/

theorem allocBufLoop_inv : ∀ (fuel : Nat) {pinned : Nat} {w : World} {s : St}
    {out : Except BufErr Nat} {w' : World} {s' : St} {tr : List Ev}, Inv w s →
    allocBufLoop w s pinned fuel = some (out, w', s', tr) →
    Inv w' s' ∧ s'.numBufs = s.numBufs ∧
    (∀ e ∈ s'.hashTable, e ∈ s.hashTable) ∧
    (∀ k, k ∈ w.disk.map Prod.fst → k ∈ w'.disk.map Prod.fst) ∧
    (∀ fid, out = Except.ok fid → fid < s'.numBufs ∧
        (s'.bufDescTable.getD fid d0).valid = false ∧
        (s'.bufDescTable.getD fid d0).pinCnt = 0) := by
  intro fuel
  induction fuel with
  | zero =>
    intro pinned w s out w' s' tr _ h
    simp [allocBufLoop] at h
  | succ fuel ih =>
    intro pinned w s out w' s' tr hInv h
    have hch := hInv.2.2.1
    have hlen := hInv.1
    have hchlen : s.clockHand < s.bufDescTable.length := hlen ▸ hch
    simp only [allocBufLoop] at h
    split at h
    · -- valid frame
      rename_i hv
      split at h
      · -- refbit set: clear it, advance, recurse
        have hInv1 : Inv w (advanceClock { s with
            bufDescTable := s.bufDescTable.set s.clockHand
              { s.bufDescTable.getD s.clockHand d0 with refbit := false } }) := by
          refine inv_advanceClock (inv_set_frame hInv s.clockHand hch _ rfl rfl rfl rfl ?_ ?_)
          · intro hd
            exact (hInv.2.2.2.1 s.clockHand hch).2.1 hd
          · intro hp
            exact (hInv.2.2.2.1 s.clockHand hch).2.2 hp
        have hrec := ih hInv1 h
        exact hrec
      · -- refbit clear
        split at h
        · -- pinned frame
          split at h
          · -- counter reaches numBufs: BufferExceeded
            simp only [Option.some.injEq, Prod.mk.injEq] at h
            obtain ⟨rfl, rfl, rfl, rfl⟩ := h
            exact ⟨hInv, rfl, fun e he => he, fun k hk => hk, fun fid hfid => by cases hfid⟩
          · -- keep sweeping
            have hrec := ih (inv_advanceClock hInv) h
            exact hrec
        · -- victim found: valid, refbit clear, unpinned
          rename_i hr hp
          split at h
          · -- null file pointer: error, state unchanged
            simp only [Option.some.injEq, Prod.mk.injEq] at h
            obtain ⟨rfl, rfl, rfl, rfl⟩ := h
            exact ⟨hInv, rfl, fun e he => he, fun k hk => hk, fun fid hfid => by cases hfid⟩
          · rename_i f hf
            have hpin0 : (s.bufDescTable.getD s.clockHand d0).pinCnt = 0 := by omega
            by_cases hd : (s.bufDescTable.getD s.clockHand d0).dirty = true
            · simp only [if_pos hd] at h
              -- write-back happened
              have hInv1 : Inv (w.writePageF f (s.bufPool.getD s.clockHand p0))
                  { s with
                    bufDescTable := s.bufDescTable.set s.clockHand
                      { s.bufDescTable.getD s.clockHand d0 with dirty := false } } := by
                refine inv_world_keys (fun k hk => disk_keys_writePageF hk)
                  (inv_set_frame hInv s.clockHand hch _ rfl rfl rfl rfl ?_ ?_)
                · intro hcon
                  simp at hcon
                · intro _
                  exact hv
              split at h
              · -- hashRemove failed: HashNotFound propagates
                simp only [Option.some.injEq, Prod.mk.injEq] at h
                obtain ⟨rfl, rfl, rfl, rfl⟩ := h
                exact ⟨hInv1, rfl, fun e he => he,
                  fun k hk => disk_keys_writePageF hk, fun fid hfid => by cases hfid⟩
              · rename_i hh hrem
                have hrem' := hashRemove_eq_some hrem
                subst hrem'
                simp only [Option.some.injEq, Prod.mk.injEq] at h
                obtain ⟨rfl, rfl, rfl, rfl⟩ := h
                have hget : ((s.bufDescTable.set s.clockHand
                    { s.bufDescTable.getD s.clockHand d0 with dirty := false }).getD
                      s.clockHand d0) =
                    { s.bufDescTable.getD s.clockHand d0 with dirty := false } :=
                  getD_set_self _ _ _ _ hchlen
                have hInv2 := inv_remove_clear hInv1 s.clockHand hch (f := f) hget hv hf
                refine ⟨hInv2, rfl, ?_, fun k hk => disk_keys_writePageF hk, ?_⟩
                · intro e he
                  exact (mem_filter_keyne.mp he).1
                · intro fid hfid
                  cases hfid
                  refine ⟨hch, ?_, ?_⟩
                  · rw [getD_set_self _ _ _ _ (by simpa using hchlen)]
                    simp [BufDesc.Clear]
                  · rw [getD_set_self _ _ _ _ (by simpa using hchlen)]
                    simp [BufDesc.Clear]
            · simp only [if_neg hd] at h
              split at h
              · -- hashRemove failed: HashNotFound propagates
                simp only [Option.some.injEq, Prod.mk.injEq] at h
                obtain ⟨rfl, rfl, rfl, rfl⟩ := h
                exact ⟨hInv, rfl, fun e he => he, fun k hk => hk, fun fid hfid => by cases hfid⟩
              · rename_i hh hrem
                have hrem' := hashRemove_eq_some hrem
                subst hrem'
                simp only [Option.some.injEq, Prod.mk.injEq] at h
                obtain ⟨rfl, rfl, rfl, rfl⟩ := h
                have hInv2 := inv_remove_clear hInv s.clockHand hch (f := f) rfl hv hf
                refine ⟨hInv2, rfl, ?_, fun k hk => hk, ?_⟩
                · intro e he
                  exact (mem_filter_keyne.mp he).1
                · intro fid hfid
                  cases hfid
                  refine ⟨hch, ?_, ?_⟩
                  · rw [getD_set_self _ _ _ _ hchlen]
                    simp [BufDesc.Clear]
                  · rw [getD_set_self _ _ _ _ hchlen]
                    simp [BufDesc.Clear]
    · -- invalid frame: use it directly
      rename_i hv
      have hvF : (s.bufDescTable.getD s.clockHand d0).valid = false := by
        simpa using hv
      simp only [Option.some.injEq, Prod.mk.injEq] at h
      obtain ⟨rfl, rfl, rfl, rfl⟩ := h
      refine ⟨inv_clear_invalid hInv s.clockHand hch hvF, rfl, fun e he => he,
        fun k hk => hk, ?_⟩
      intro fid hfid
      cases hfid
      refine ⟨hch, ?_, ?_⟩
      · rw [getD_set_self _ _ _ _ hchlen]
        simp [BufDesc.Clear]
      · rw [getD_set_self _ _ _ _ hchlen]
        simp [BufDesc.Clear]

theorem disk_keys_deletePageF {w : World} {f p : Nat} {k : Nat × Nat} (hne : k ≠ (f, p))
    (hk : k ∈ w.disk.map Prod.fst) : k ∈ (w.deletePageF f p).disk.map Prod.fst := by
  rcases List.mem_map.mp hk with ⟨e, he, hek⟩
  refine List.mem_map.mpr ⟨e, ?_, hek⟩
  simp only [World.deletePageF]
  exact List.mem_filter.mpr ⟨he, by simp [hek, hne]⟩

theorem findPage_mem_keys {w : World} {f p : Nat} {pg : Page}
    (h : w.findPage f p = some pg) : (f, p) ∈ w.disk.map Prod.fst := by
  unfold World.findPage at h
  cases hfind : w.disk.find? (fun e => e.1 == (f, p)) with
  | none => rw [hfind] at h; cases h
  | some e =>
    have hm := List.mem_of_find?_eq_some hfind
    have hp := List.find?_some hfind
    have he : e.1 = (f, p) := by simpa using hp
    exact he ▸ List.mem_map_of_mem Prod.fst hm

/-! ### Invariant preservation by each public operation -/

theorem inv_readPage {w : World} {s : St} {f pid fuel : Nat} {out : Except BufErr Nat}
    {w' : World} {s' : St} {tr : List Ev} (hInv : Inv w s)
    (h : readPage w s f pid fuel = some (out, w', s', tr)) : Inv w' s' := by
  simp only [readPage] at h
  split at h
  · -- hit
    rename_i fid hlk
    simp only [Option.some.injEq, Prod.mk.injEq] at h
    obtain ⟨rfl, rfl, rfl, rfl⟩ := h
    obtain ⟨h1, h2, h3, h4⟩ := hInv.2.2.2.2.1.1 _ (hashLookup_mem hlk)
    exact inv_set_frame hInv fid h1 _ rfl rfl rfl rfl (fun _ => h2) (fun _ => h2)
  · -- miss
    rename_i hlk
    split at h
    · cases h
    · rename_i e w1 s1 tr1 hab
      simp only [Option.some.injEq, Prod.mk.injEq] at h
      obtain ⟨rfl, rfl, rfl, rfl⟩ := h
      exact (allocBufLoop_inv fuel (inv_advanceClock hInv) hab).1
    · rename_i frameId w1 s1 tr1 hab
      obtain ⟨i1, i2, i3, i4, i5⟩ := allocBufLoop_inv fuel (inv_advanceClock hInv) hab
      obtain ⟨f1, f2, f3⟩ := i5 frameId rfl
      split at h
      · simp only [Option.some.injEq, Prod.mk.injEq] at h
        obtain ⟨rfl, rfl, rfl, rfl⟩ := h
        exact i1
      · rename_i pg hpg
        simp only [Option.some.injEq, Prod.mk.injEq] at h
        obtain ⟨rfl, rfl, rfl, rfl⟩ := h
        refine inv_install i1 frameId (i2 ▸ f1) f2 ?_ ?_ pg
        · exact hashLookup_none_of_subset i3 hlk
        · exact findPage_mem_keys hpg

theorem inv_allocPage {w : World} {s : St} {f fuel : Nat} {out : Except BufErr (Nat × Nat)}
    {w' : World} {s' : St} {tr : List Ev} (hInv : Inv w s)
    (h : allocPage w s f fuel = some (out, w', s', tr)) : Inv w' s' := by
  simp only [allocPage] at h
  have hInvA : Inv (w.allocatePageF f).2 s :=
    inv_world_keys (fun k hk => disk_keys_allocatePageF hk) hInv
  have hfresh : hashLookup s.hashTable f (w.allocatePageF f).1.pageNo = none := by
    rw [hashLookup_eq_none]
    intro e he hk
    have := hInv.2.2.2.2.2 e he
    rw [hk] at this
    exact allocatePageF_fresh this
  split at h
  · cases h
  · rename_i e w1 s1 tr1 hab
    simp only [Option.some.injEq, Prod.mk.injEq] at h
    obtain ⟨rfl, rfl, rfl, rfl⟩ := h
    exact (allocBufLoop_inv fuel (inv_advanceClock hInvA) hab).1
  · rename_i frameId w1 s1 tr1 hab
    obtain ⟨i1, i2, i3, i4, i5⟩ := allocBufLoop_inv fuel (inv_advanceClock hInvA) hab
    obtain ⟨f1, f2, f3⟩ := i5 frameId rfl
    simp only [Option.some.injEq, Prod.mk.injEq] at h
    obtain ⟨rfl, rfl, rfl, rfl⟩ := h
    refine inv_install i1 frameId (i2 ▸ f1) f2 ?_ ?_ _
    · exact hashLookup_none_of_subset i3 hfresh
    · refine i4 _ ?_
      simp [World.allocatePageF]

theorem inv_unPinPage {w : World} {s : St} {f pid : Nat} {dirt : Bool}
    {out : Except BufErr Unit} {w' : World} {s' : St} {tr : List Ev} (hInv : Inv w s)
    (h : unPinPage w s f pid dirt = (out, w', s', tr)) : Inv w' s' := by
  simp only [unPinPage] at h
  split at h
  · simp only [Prod.mk.injEq] at h
    obtain ⟨rfl, rfl, rfl, rfl⟩ := h
    exact hInv
  · rename_i fid hlk
    obtain ⟨h1, h2, h3, h4⟩ := hInv.2.2.2.2.1.1 _ (hashLookup_mem hlk)
    split at h
    · simp only [Prod.mk.injEq] at h
      obtain ⟨rfl, rfl, rfl, rfl⟩ := h
      exact hInv
    · simp only [Prod.mk.injEq] at h
      obtain ⟨rfl, rfl, rfl, rfl⟩ := h
      cases dirt
      · simp only [Bool.false_eq_true, if_false]
        exact inv_set_frame hInv fid h1 _ rfl rfl rfl rfl (fun _ => h2) (fun _ => h2)
      · simp only [if_true]
        exact inv_set_frame hInv fid h1 _ rfl rfl rfl rfl (fun _ => h2) (fun _ => h2)

theorem inv_flushFileLoop {f : Nat} : ∀ (k : Nat) {i : Nat} {w : World} {s : St}
    {out : Except BufErr Unit} {w' : World} {s' : St} {tr : List Ev}, Inv w s →
    flushFileLoop f w s i k = (out, w', s', tr) → Inv w' s' := by
  intro k
  induction k with
  | zero =>
    intro i w s out w' s' tr hInv h
    simp only [flushFileLoop, Prod.mk.injEq] at h
    obtain ⟨rfl, rfl, rfl, rfl⟩ := h
    exact hInv
  | succ k ih =>
    intro i w s out w' s' tr hInv h
    simp only [flushFileLoop] at h
    split at h
    · -- frame belongs to the file
      rename_i hfile
      split at h
      · -- pinned
        simp only [Prod.mk.injEq] at h
        obtain ⟨rfl, rfl, rfl, rfl⟩ := h
        exact hInv
      · split at h
        · -- invalid
          simp only [Prod.mk.injEq] at h
          obtain ⟨rfl, rfl, rfl, rfl⟩ := h
          exact hInv
        · rename_i hpin hval
          have hv : (s.bufDescTable.getD i d0).valid = true := by
            cases hvb : (s.bufDescTable.getD i d0).valid
            · exact absurd hvb hval
            · rfl
          by_cases hin : i < s.numBufs
          case neg =>
            -- a frame index outside the table: its descriptor is d0,
            -- whose file is none, contradicting the match
            exfalso
            have : s.bufDescTable.getD i d0 = d0 := by
              apply List.getD_eq_default
              rw [hInv.1]
              omega
            rw [this] at hfile
            cases hfile
          case pos =>
            have hilen : i < s.bufDescTable.length := hInv.1 ▸ hin
            by_cases hd : (s.bufDescTable.getD i d0).dirty = true
            · simp only [if_pos hd] at h
              have hInv1 : Inv (w.writePageF f (s.bufPool.getD i p0))
                  { s with
                    bufDescTable := s.bufDescTable.set i
                      { s.bufDescTable.getD i d0 with dirty := false } } := by
                refine inv_world_keys (fun k hk => disk_keys_writePageF hk)
                  (inv_set_frame hInv i hin _ rfl rfl rfl rfl ?_ ?_)
                · intro hcon
                  simp at hcon
                · intro _
                  exact hv
              split at h
              · simp only [Prod.mk.injEq] at h
                obtain ⟨rfl, rfl, rfl, rfl⟩ := h
                exact hInv1
              · rename_i hh hrem
                have hrem' := hashRemove_eq_some hrem
                subst hrem'
                have hget : ((s.bufDescTable.set i
                    { s.bufDescTable.getD i d0 with dirty := false }).getD i d0) =
                    { s.bufDescTable.getD i d0 with dirty := false } :=
                  getD_set_self _ _ _ _ hilen
                have hInv2 := inv_remove_clear hInv1 i hin (f := f) hget hv hfile
                simp only [Prod.mk.injEq] at h
                obtain ⟨rfl, rfl, rfl, rfl⟩ := h
                exact ih hInv2 rfl
            · simp only [if_neg hd] at h
              split at h
              · simp only [Prod.mk.injEq] at h
                obtain ⟨rfl, rfl, rfl, rfl⟩ := h
                exact hInv
              · rename_i hh hrem
                have hrem' := hashRemove_eq_some hrem
                subst hrem'
                have hInv2 := inv_remove_clear hInv i hin (f := f) rfl hv hfile
                simp only [Prod.mk.injEq] at h
                obtain ⟨rfl, rfl, rfl, rfl⟩ := h
                exact ih hInv2 rfl
    · exact ih hInv h

theorem inv_flushFile {w : World} {s : St} {f : Nat} {out : Except BufErr Unit}
    {w' : World} {s' : St} {tr : List Ev} (hInv : Inv w s)
    (h : flushFile w s f = (out, w', s', tr)) : Inv w' s' :=
  inv_flushFileLoop _ hInv h

theorem inv_disposePage {w : World} {s : St} {f pid : Nat} {out : Except BufErr Unit}
    {w' : World} {s' : St} {tr : List Ev} (hInv : Inv w s)
    (h : disposePage w s f pid = (out, w', s', tr)) : Inv w' s' := by
  simp only [disposePage] at h
  split at h
  · rename_i fid hlk
    obtain ⟨h1, h2, h3, h4⟩ := hInv.2.2.2.2.1.1 _ (hashLookup_mem hlk)
    split at h
    · simp only [Prod.mk.injEq] at h
      obtain ⟨rfl, rfl, rfl, rfl⟩ := h
      exact hInv
    · rename_i hh hrem
      have hrem' := hashRemove_eq_some hrem
      subst hrem'
      simp only [Prod.mk.injEq] at h
      obtain ⟨rfl, rfl, rfl, rfl⟩ := h
      have hInv2 := inv_remove_clear hInv fid h1 (f := f) rfl h2 h3
      rw [show ((s.bufDescTable.getD fid d0).pageNo) = pid from h4] at hInv2
      obtain ⟨a1, a2, a3, a4, a5, a6⟩ := hInv2
      refine ⟨a1, a2, a3, a4, a5, fun e he => ?_⟩
      have hne := (mem_filter_keyne.mp he).2
      exact disk_keys_deletePageF hne (a6 e he)
  · rename_i hlk
    simp only [Prod.mk.injEq] at h
    obtain ⟨rfl, rfl, rfl, rfl⟩ := h
    obtain ⟨a1, a2, a3, a4, a5, a6⟩ := hInv
    refine ⟨a1, a2, a3, a4, a5, fun e he => ?_⟩
    exact disk_keys_deletePageF (hashLookup_eq_none.mp hlk e he) (a6 e he)

theorem inv_step {p q : World × St} (hInv : Inv p.1 p.2) (hs : Step p q) : Inv q.1 q.2 := by
  cases hs with
  | rd w s f pid fuel r h =>
    obtain ⟨out, w', s', tr⟩ := r
    exact inv_readPage hInv h
  | al w s f fuel r h =>
    obtain ⟨out, w', s', tr⟩ := r
    exact inv_allocPage hInv h
  | up w s f pid dirt => exact inv_unPinPage hInv rfl
  | fl w s f => exact inv_flushFile hInv rfl
  | dp w s f pid => exact inv_disposePage hInv rfl

theorem getD_range_map {g : Nat → BufDesc} {n i : Nat} (hi : i < n) (dflt : BufDesc) :
    ((List.range n).map g).getD i dflt = g i := by
  rw [List.getD_eq_getElem?_getD]
  rw [List.getElem?_map]
  rw [List.getElem?_range hi]
  rfl

theorem inv_init (w0 : World) {n : Nat} (hn : 0 < n) : Inv w0 (initSt n) := by
  refine ⟨by simp [initSt], by simp [initSt], by simp [initSt]; omega, ?_, ⟨?_, ?_, ?_⟩, ?_⟩
  · intro i hi
    simp only [initSt] at hi ⊢
    rw [getD_range_map hi]
    simp [d0]
  · intro e he
    simp [initSt] at he
  · intro i hi hv
    simp only [initSt] at hi hv
    rw [getD_range_map hi] at hv
    simp [d0] at hv
  · simp [initSt]
  · intro e he
    simp [initSt] at he

theorem inv_reachable {w0 : World} {n : Nat} (hn : 0 < n) {p : World × St}
    (hr : Reachable w0 n p) : Inv p.1 p.2 := by
  induction hr with
  | refl => exact inv_init w0 hn
  | tail _ hstep ih => exact inv_step ih hstep

theorem getD_of_map_eraseRef {l l' : List BufDesc}
    (h : l.map eraseRef = l'.map eraseRef) (i : Nat) :
    eraseRef (l.getD i d0) = eraseRef (l'.getD i d0) := by
  induction l generalizing l' i with
  | nil =>
    cases l' with
    | nil => rfl
    | cons y ys => simp at h
  | cons x xs ih =>
    cases l' with
    | nil => simp at h
    | cons y ys =>
      simp only [List.map_cons, List.cons.injEq] at h
      cases i with
      | zero => exact h.1
      | succ i => exact ih h.2 i

/-! ### Characterization of successful allocBuf runs -/

theorem allocBufLoop_char : ∀ (fuel : Nat) {pinned : Nat} {w : World} {s : St} {fid : Nat}
    {w' : World} {s' : St} {tr : List Ev},
    s.clockHand < s.numBufs → s.bufDescTable.length = s.numBufs →
    allocBufLoop w s pinned fuel = some (Except.ok fid, w', s', tr) →
    fid = s'.clockHand ∧ fid < s.numBufs ∧
    s'.bufPool = s.bufPool ∧ s'.numBufs = s.numBufs ∧
    s'.bufDescTable.length = s.bufDescTable.length ∧
    s'.bufDescTable.getD fid d0 = (s.bufDescTable.getD fid d0).Clear ∧
    ((s.bufDescTable.getD fid d0).valid = true →
        (s.bufDescTable.getD fid d0).pinCnt = 0 ∧
        (s.bufDescTable.getD fid d0).file.isSome = true ∧
        tr = (if (s.bufDescTable.getD fid d0).dirty = true then
                [Ev.writeP ((s.bufDescTable.getD fid d0).file.getD 0)
                  (s.bufPool.getD fid p0)] else [])
          ++ [Ev.hRemove ((s.bufDescTable.getD fid d0).file.getD 0)
                (s.bufDescTable.getD fid d0).pageNo] ∧
        s'.hashTable = s.hashTable.filter
          (fun e => e.1 != ((s.bufDescTable.getD fid d0).file.getD 0,
            (s.bufDescTable.getD fid d0).pageNo)) ∧
        w' = (if (s.bufDescTable.getD fid d0).dirty = true then
                w.writePageF ((s.bufDescTable.getD fid d0).file.getD 0)
                  (s.bufPool.getD fid p0) else w)) ∧
    ((s.bufDescTable.getD fid d0).valid = false →
        tr = [] ∧ s'.hashTable = s.hashTable ∧ w' = w) := by
  intro fuel
  induction fuel with
  | zero =>
    intro pinned w s fid w' s' tr _ _ h
    simp [allocBufLoop] at h
  | succ fuel ih =>
    intro pinned w s fid w' s' tr hch hlen h
    have hchlen : s.clockHand < s.bufDescTable.length := hlen ▸ hch
    have hpos : 0 < s.numBufs := Nat.lt_of_le_of_lt (Nat.zero_le _) hch
    simp only [allocBufLoop] at h
    split at h
    · -- valid frame
      rename_i hv
      split at h
      · -- refbit set: clear it, advance, recurse
        rename_i hr
        have hch1 : ((s.clockHand + 1) % s.numBufs) < s.numBufs := Nat.mod_lt _ hpos
        have hlen1 : (s.bufDescTable.set s.clockHand
            { s.bufDescTable.getD s.clockHand d0 with refbit := false }).length
            = s.numBufs := by simpa using hlen
        obtain ⟨e1, e2, e3, e4, e5, e6, e7, e8⟩ := ih hch1 hlen1 h
        simp only [advanceClock] at e1 e2 e3 e4 e5 e6 e7 e8
        rw [List.length_set] at e5
        by_cases hfc : fid = s.clockHand
        · subst hfc
          rw [getD_set_self _ _ _ _ hchlen] at e6 e7 e8
          exact ⟨e1, e2, e3, e4, e5, e6, fun hv' => e7 hv', fun hv' => e8 hv'⟩
        · rw [getD_set_ne _ _ _ _ _ (fun hh => hfc hh.symm)] at e6 e7 e8
          exact ⟨e1, e2, e3, e4, e5, e6, e7, e8⟩
      · -- refbit clear
        split at h
        · -- pinned
          split at h
          · simp at h
          · -- keep sweeping
            have hch1 : ((s.clockHand + 1) % s.numBufs) < s.numBufs := Nat.mod_lt _ hpos
            obtain ⟨e1, e2, e3, e4, e5, e6, e7, e8⟩ := ih (s := advanceClock s) hch1 hlen h
            exact ⟨e1, e2, e3, e4, e5, e6, e7, e8⟩
        · -- victim
          rename_i hr hp
          split at h
          · simp at h
          · rename_i f hf
            by_cases hd : (s.bufDescTable.getD s.clockHand d0).dirty = true
            · simp only [if_pos hd] at h
              split at h
              · simp at h
              · rename_i hh hrem
                have hrem' := hashRemove_eq_some hrem
                subst hrem'
                simp only [Option.some.injEq, Prod.mk.injEq, Except.ok.injEq] at h
                obtain ⟨rfl, rfl, rfl, rfl⟩ := h
                refine ⟨rfl, hch, rfl, rfl, by simp, ?_, ?_, ?_⟩
                · rw [getD_set_self _ _ _ _ (by simpa using hchlen)]
                · intro _
                  refine ⟨by omega, by rw [hf]; rfl, ?_, ?_, ?_⟩
                  · rw [if_pos hd, hf]
                    rfl
                  · rw [hf]
                    rfl
                  · rw [if_pos hd, hf]
                    rfl
                · intro hvF
                  rw [hv] at hvF
                  cases hvF
            · simp only [if_neg hd] at h
              split at h
              · simp at h
              · rename_i hh hrem
                have hrem' := hashRemove_eq_some hrem
                subst hrem'
                simp only [Option.some.injEq, Prod.mk.injEq, Except.ok.injEq] at h
                obtain ⟨rfl, rfl, rfl, rfl⟩ := h
                refine ⟨rfl, hch, rfl, rfl, by simp, ?_, ?_, ?_⟩
                · rw [getD_set_self _ _ _ _ hchlen]
                · intro _
                  refine ⟨by omega, by rw [hf]; rfl, ?_, ?_, ?_⟩
                  · rw [if_neg hd, hf]
                    rfl
                  · rw [hf]
                    rfl
                  · rw [if_neg hd]
                · intro hvF
                  rw [hv] at hvF
                  cases hvF
    · -- invalid frame
      rename_i hv
      have hvF : (s.bufDescTable.getD s.clockHand d0).valid = false := by
        cases hvb : (s.bufDescTable.getD s.clockHand d0).valid
        · rfl
        · exact absurd hvb hv
      simp only [Option.some.injEq, Prod.mk.injEq, Except.ok.injEq] at h
      obtain ⟨rfl, rfl, rfl, rfl⟩ := h
      refine ⟨rfl, hch, rfl, rfl, by simp, ?_, ?_, fun _ => ⟨rfl, rfl, rfl⟩⟩
      · rw [getD_set_self _ _ _ _ hchlen]
      · intro hvT
        rw [hvF] at hvT
        cases hvT

theorem allocBufLoop_exceeded : ∀ (fuel : Nat) {pinned : Nat} {w : World} {s : St}
    {w' : World} {s' : St} {tr : List Ev},
    allocBufLoop w s pinned fuel = some (Except.error BufErr.bufferExceeded, w', s', tr) →
    w' = w ∧ s'.numBufs = s.numBufs ∧ s'.bufPool = s.bufPool ∧
    s'.hashTable = s.hashTable ∧ tr = [] ∧
    s'.bufDescTable.map eraseRef = s.bufDescTable.map eraseRef := by
  intro fuel
  induction fuel with
  | zero =>
    intro pinned w s w' s' tr h
    simp [allocBufLoop] at h
  | succ fuel ih =>
    intro pinned w s w' s' tr h
    simp only [allocBufLoop] at h
    split at h
    · split at h
      · -- refbit cleared, recurse
        obtain ⟨e1, e2, e3, e4, e5, e6⟩ := ih h
        refine ⟨e1, e2, e3, e4, e5, e6.trans ?_⟩
        exact map_eraseRef_set _ _ _ rfl
      · split at h
        · split at h
          · -- BufferExceeded raised here
            simp only [Option.some.injEq, Prod.mk.injEq] at h
            obtain ⟨_, rfl, rfl, rfl⟩ := h
            exact ⟨rfl, rfl, rfl, rfl, rfl, rfl⟩
          · exact ih (s := advanceClock s) h
        · split at h
          · simp at h
          · split at h
            · simp at h
            · simp at h
    · simp at h

/-! ### Claim theorems -/

theorem allocBufLoop_no_invalidPage : ∀ (fuel : Nat) {pinned : Nat} {w : World} {s : St}
    {w' : World} {s' : St} {tr : List Ev},
    allocBufLoop w s pinned fuel = some (Except.error BufErr.invalidPage, w', s', tr) →
    False := by
  intro fuel
  induction fuel with
  | zero =>
    intro pinned w s w' s' tr h
    simp [allocBufLoop] at h
  | succ fuel ih =>
    intro pinned w s w' s' tr h
    simp only [allocBufLoop] at h
    split at h
    · split at h
      · exact ih h
      · split at h
        · split at h
          · simp at h
          · exact ih (s := advanceClock s) h
        · split at h
          · simp at h
          · split at h
            · simp at h
            · simp at h
    · simp at h

/-- C3: `alloc_buf` never selects a pinned frame as its victim: whenever it
returns frame `fid` and that frame was valid, the frame had `pin_count = 0`.
When the victim is moreover dirty, its exact pool bytes are passed to
`file.write_page` and that call (`Ev.writeP`, first in the trace) strictly
precedes the hash-entry removal (`Ev.hRemove`); the frame itself ends
cleared, and `alloc_buf` leaves the buffer pool untouched, so any incoming
page overwrites the victim only after the write-back. -/
theorem c3_allocBuf_eviction_contract {w : World} {s : St} {fuel fid : Nat}
    {w' : World} {s' : St} {tr : List Ev}
    (hn : 0 < s.numBufs) (hlen : s.bufDescTable.length = s.numBufs)
    (h : allocBuf w s fuel = some (Except.ok fid, w', s', tr)) :
    ((s.bufDescTable.getD fid d0).valid = true →
        (s.bufDescTable.getD fid d0).pinCnt = 0 ∧
        tr = (if (s.bufDescTable.getD fid d0).dirty = true then
                [Ev.writeP ((s.bufDescTable.getD fid d0).file.getD 0)
                  (s.bufPool.getD fid p0)] else [])
          ++ [Ev.hRemove ((s.bufDescTable.getD fid d0).file.getD 0)
                (s.bufDescTable.getD fid d0).pageNo] ∧
        s'.hashTable = s.hashTable.filter
          (fun e => e.1 != ((s.bufDescTable.getD fid d0).file.getD 0,
            (s.bufDescTable.getD fid d0).pageNo)) ∧
        w' = (if (s.bufDescTable.getD fid d0).dirty = true then
                w.writePageF ((s.bufDescTable.getD fid d0).file.getD 0)
                  (s.bufPool.getD fid p0) else w)) ∧
    s'.bufDescTable.getD fid d0 = (s.bufDescTable.getD fid d0).Clear ∧
    s'.bufPool = s.bufPool ∧
    ((s.bufDescTable.getD fid d0).valid = false →
        tr = [] ∧ s'.hashTable = s.hashTable ∧ w' = w) := by
  have hch1 : (advanceClock s).clockHand < (advanceClock s).numBufs := Nat.mod_lt _ hn
  obtain ⟨e1, e2, e3, e4, e5, e6, e7, e8⟩ :=
    allocBufLoop_char fuel (s := advanceClock s) hch1 hlen h
  exact ⟨fun hv => ⟨(e7 hv).1, (e7 hv).2.2.1, (e7 hv).2.2.2.1, (e7 hv).2.2.2.2⟩, e6, e3, e8⟩

/-- Witness for C3: a one-frame manager holding dirty unpinned page
`(7, 3)`; the victim was unpinned, the write-back of the exact bytes
precedes the hash removal in the trace, and the frame ends cleared. -/
theorem c3_witness :
    (c3s.bufDescTable.getD 0 d0).valid = true ∧
    (c3s.bufDescTable.getD 0 d0).pinCnt = 0 ∧
    c3s2.bufDescTable.getD 0 d0 = (c3s.bufDescTable.getD 0 d0).Clear ∧
    ([Ev.writeP 7 ⟨3, 42⟩, Ev.hRemove 7 3] : List Ev)
      = (if (c3s.bufDescTable.getD 0 d0).dirty = true then
          [Ev.writeP ((c3s.bufDescTable.getD 0 d0).file.getD 0) (c3s.bufPool.getD 0 p0)]
        else [])
        ++ [Ev.hRemove ((c3s.bufDescTable.getD 0 d0).file.getD 0)
            (c3s.bufDescTable.getD 0 d0).pageNo] := by
  have h := @c3_allocBuf_eviction_contract c3w c3s 3 0 c3w2 c3s2
    [Ev.writeP 7 ⟨3, 42⟩, Ev.hRemove 7 3]
    (by decide) (by decide) (by rfl)
  exact ⟨by decide, (h.1 (by decide)).1, h.2.1, (h.1 (by decide)).2.1⟩

/-- C10: if the hash probe misses and the subsequent `file.read_page`
fails, `readPage` surfaces the failure with the eviction already
committed: the returned outcome is exactly the `alloc_buf` outcome, the
chosen frame is cleared, no hash entry exists for the requested page, and
a valid dirty victim was written back (its `Ev.writeP` is in the trace)
with its own hash entry removed. -/
theorem c10_readPage_fail_eviction_committed {w : World} {s : St} {f pid fuel : Nat}
    {w' : World} {s' : St} {tr : List Ev}
    (hn : 0 < s.numBufs) (hlen : s.bufDescTable.length = s.numBufs)
    (hlk : hashLookup s.hashTable f pid = none)
    (h : readPage w s f pid fuel = some (Except.error BufErr.invalidPage, w', s', tr)) :
    allocBuf w s fuel = some (Except.ok s'.clockHand, w', s', tr) ∧
    w'.findPage f pid = none ∧
    (s'.bufDescTable.getD s'.clockHand d0).valid = false ∧
    (s'.bufDescTable.getD s'.clockHand d0).pinCnt = 0 ∧
    hashLookup s'.hashTable f pid = none ∧
    ((s.bufDescTable.getD s'.clockHand d0).valid = true →
        (s.bufDescTable.getD s'.clockHand d0).pinCnt = 0 ∧
        ((s.bufDescTable.getD s'.clockHand d0).dirty = true →
          Ev.writeP ((s.bufDescTable.getD s'.clockHand d0).file.getD 0)
            (s.bufPool.getD s'.clockHand p0) ∈ tr) ∧
        hashLookup s'.hashTable ((s.bufDescTable.getD s'.clockHand d0).file.getD 0)
          (s.bufDescTable.getD s'.clockHand d0).pageNo = none) := by
  simp only [readPage, hlk] at h
  split at h
  · cases h
  · rename_i e w1 s1 tr1 hab
    simp only [Option.some.injEq, Prod.mk.injEq, Except.error.injEq] at h
    obtain ⟨he, rfl, rfl, rfl⟩ := h
    subst he
    exact absurd hab (fun hc => allocBufLoop_no_invalidPage fuel hc)
  · rename_i frameId w1 s1 tr1 hab
    have hch1 : (advanceClock s).clockHand < (advanceClock s).numBufs :=
      Nat.mod_lt _ hn
    obtain ⟨e1, e2, e3, e4, e5, e6, e7, e8⟩ :=
      allocBufLoop_char fuel (s := advanceClock s) hch1 hlen hab
    simp only [advanceClock] at e6 e7 e8
    split at h
    · rename_i hpg
      simp only [Option.some.injEq, Prod.mk.injEq] at h
      obtain ⟨_, rfl, rfl, rfl⟩ := h
      subst e1
      have hsub : ∀ e ∈ s1.hashTable, e ∈ s.hashTable := by
        intro e he
        cases hvb : (s.bufDescTable.getD s1.clockHand d0).valid with
        | false =>
          rw [(e8 hvb).2.1] at he
          exact he
        | true =>
          rw [(e7 hvb).2.2.2.1] at he
          exact (mem_filter_keyne.mp he).1
      refine ⟨hab, hpg, ?_, ?_, hashLookup_none_of_subset hsub hlk, ?_⟩
      · rw [e6]
        simp [BufDesc.Clear]
      · rw [e6]
        simp [BufDesc.Clear]
      · intro hv
        refine ⟨(e7 hv).1, ?_, ?_⟩
        · intro hd
          rw [(e7 hv).2.2.1, if_pos hd]
          simp
        · rw [(e7 hv).2.2.2.1]
          exact hashLookup_filter_self
    · simp at h

/-- Witness for C10: a one-frame manager holding dirty unpinned page
`(0, 1)` and a read of the absent page `(0, 2)`: the dirty victim's
write-back is in the trace and no entry for `(0, 2)` was inserted. -/
theorem c10_witness :
    Ev.writeP 0 ⟨1, 9⟩ ∈ ([Ev.writeP 0 ⟨1, 9⟩, Ev.hRemove 0 1] : List Ev) ∧
    hashLookup c10s2.hashTable 0 2 = none ∧
    (c10s2.bufDescTable.getD c10s2.clockHand d0).valid = false := by
  have h := @c10_readPage_fail_eviction_committed c10w c10s 0 2 5 c10w2 c10s2
    [Ev.writeP 0 ⟨1, 9⟩, Ev.hRemove 0 1]
    (by decide) (by decide) (by rfl) (by rfl)
  exact ⟨(h.2.2.2.2.2 (by decide)).2.1 (by decide), h.2.2.2.2.1, h.2.2.1⟩

theorem hashLookup_insert_self (h : Hash) (f p fid : Nat) :
    hashLookup (hashInsert h f p fid) f p = some fid := by
  unfold hashLookup hashInsert
  rw [List.find?_cons_of_pos _ (by simp)]
  rfl

/-- C4: `readPage` on a hash hit sets `ref_bit`, increments `pin_count`,
returns that frame and performs no `file.read_page` (empty trace); on a
miss it obtains a frame from `alloc_buf`, reads the page from the file
into the pool, inserts the hash entry and leaves the frame with
`pin_count = 1`, `ref_bit = true`, `dirty = false`, `valid = true`; in
both cases the returned frame ends with `pin_count ≥ 1` and
`ref_bit = true`. -/
theorem c4_readPage_contract {w : World} {s : St} {f pid fuel fid : Nat}
    {w' : World} {s' : St} {tr : List Ev}
    (hwf : ∀ e ∈ s.hashTable, e.2 < s.bufDescTable.length)
    (hn : 0 < s.numBufs) (hlen : s.bufDescTable.length = s.numBufs)
    (hpool : s.bufPool.length = s.numBufs)
    (h : readPage w s f pid fuel = some (Except.ok fid, w', s', tr)) :
    (∀ fid', hashLookup s.hashTable f pid = some fid' →
        fid' = fid ∧ w' = w ∧ tr = [] ∧ s'.hashTable = s.hashTable ∧
        s'.bufPool = s.bufPool ∧
        (s'.bufDescTable.getD fid d0).pinCnt = (s.bufDescTable.getD fid d0).pinCnt + 1 ∧
        (s'.bufDescTable.getD fid d0).refbit = true ∧
        (s'.bufDescTable.getD fid d0).valid = (s.bufDescTable.getD fid d0).valid ∧
        (s'.bufDescTable.getD fid d0).dirty = (s.bufDescTable.getD fid d0).dirty) ∧
    (hashLookup s.hashTable f pid = none →
        fid < s.numBufs ∧
        hashLookup s'.hashTable f pid = some fid ∧
        (s'.bufDescTable.getD fid d0).pinCnt = 1 ∧
        (s'.bufDescTable.getD fid d0).refbit = true ∧
        (s'.bufDescTable.getD fid d0).dirty = false ∧
        (s'.bufDescTable.getD fid d0).valid = true ∧
        (s'.bufDescTable.getD fid d0).file = some f ∧
        (s'.bufDescTable.getD fid d0).pageNo = pid ∧
        w'.findPage f pid = some (s'.bufPool.getD fid p0) ∧
        Ev.readP f pid ∈ tr) ∧
    (1 ≤ (s'.bufDescTable.getD fid d0).pinCnt ∧
      (s'.bufDescTable.getD fid d0).refbit = true) := by
  simp only [readPage] at h
  split at h
  · -- hit
    rename_i fid0 hlk0
    simp only [Option.some.injEq, Prod.mk.injEq, Except.ok.injEq] at h
    obtain ⟨rfl, rfl, rfl, rfl⟩ := h
    have hflen : fid0 < s.bufDescTable.length := hwf _ (hashLookup_mem hlk0)
    refine ⟨?_, ?_, ?_⟩
    · intro fid' hlk'
      rw [hlk0] at hlk'
      refine ⟨(Option.some_injective _ hlk').symm, rfl, rfl, rfl, rfl, ?_, ?_, ?_, ?_⟩
      · rw [getD_set_self _ _ _ _ hflen]
      · rw [getD_set_self _ _ _ _ hflen]
      · rw [getD_set_self _ _ _ _ hflen]
      · rw [getD_set_self _ _ _ _ hflen]
    · intro hlkn
      rw [hlk0] at hlkn
      cases hlkn
    · rw [getD_set_self _ _ _ _ hflen]
      exact ⟨Nat.le_add_left 1 _, rfl⟩
  · -- miss
    rename_i hlk
    split at h
    · cases h
    · simp at h
    · rename_i frameId w1 s1 tr1 hab
      have hch1 : (advanceClock s).clockHand < (advanceClock s).numBufs := Nat.mod_lt _ hn
      obtain ⟨e1, e2, e3, e4, e5, e6, e7, e8⟩ :=
        allocBufLoop_char fuel (s := advanceClock s) hch1 hlen hab
      simp only [advanceClock] at e3 e5
      split at h
      · simp at h
      · rename_i pg hpg
        simp only [Option.some.injEq, Prod.mk.injEq, Except.ok.injEq] at h
        obtain ⟨rfl, rfl, rfl, rfl⟩ := h
        have hflen1 : frameId < s1.bufDescTable.length := by
          rw [e5, hlen]
          exact e2
        have hplen1 : frameId < s1.bufPool.length := by
          rw [e3, hpool]
          exact e2
        have hgset : ((s1.bufDescTable.set frameId
            ((s1.bufDescTable.getD frameId d0).Set f pid)).getD frameId d0) =
            (s1.bufDescTable.getD frameId d0).Set f pid :=
          getD_set_self _ _ _ _ hflen1
        refine ⟨?_, ?_, ?_⟩
        · intro fid' hlk'
          rw [hlk] at hlk'
          cases hlk'
        · intro _
          refine ⟨e2, hashLookup_insert_self _ _ _ _, ?_, ?_, ?_, ?_, ?_, ?_, ?_, ?_⟩
          · rw [hgset]
            rfl
          · rw [hgset]
            rfl
          · rw [hgset]
            rfl
          · rw [hgset]
            rfl
          · rw [hgset]
            rfl
          · rw [hgset]
            rfl
          · rw [getD_set_self _ _ _ _ hplen1]
            exact hpg
          · simp
        · rw [hgset]
          exact ⟨Nat.le_refl 1, rfl⟩

/-- Witness for C4 at a one-frame fresh manager reading page `(0, 5)`
(a miss): the returned frame ends pinned once with its ref bit set and
resident for `(0, 5)`. -/
theorem c4_witness :
    1 ≤ (c4s2.bufDescTable.getD 0 d0).pinCnt ∧
    (c4s2.bufDescTable.getD 0 d0).refbit = true ∧
    hashLookup c4s2.hashTable 0 5 = some 0 := by
  have h := @c4_readPage_contract c4w (initSt 1) 0 5 3 0 c4w c4s2 [Ev.readP 0 5]
    (by decide) (by decide) (by decide) (by decide) (by rfl)
  exact ⟨h.2.2.1, h.2.2.2, (h.2.1 rfl).2.1⟩

/-- C6: `unPinPage` succeeds silently with no state change when the page
is absent; fails with `PageNotPinned` and changes nothing when the
resident frame has `pin_count = 0`; otherwise decrements `pin_count` by
one, sets `dirty` when the flag is true and leaves `dirty` unchanged when
the flag is false. -/
theorem c6_unPinPage_contract {w : World} {s : St} {f pid : Nat} {dirt : Bool}
    {out : Except BufErr Unit} {w' : World} {s' : St} {tr : List Ev}
    (hwf : ∀ e ∈ s.hashTable, e.2 < s.bufDescTable.length)
    (h : unPinPage w s f pid dirt = (out, w', s', tr)) :
    (hashLookup s.hashTable f pid = none →
        out = Except.ok () ∧ w' = w ∧ s' = s ∧ tr = []) ∧
    (∀ fid, hashLookup s.hashTable f pid = some fid →
      ((s.bufDescTable.getD fid d0).pinCnt = 0 →
          out = Except.error BufErr.pageNotPinned ∧ w' = w ∧ s' = s ∧ tr = []) ∧
      ((s.bufDescTable.getD fid d0).pinCnt ≠ 0 →
          out = Except.ok () ∧ w' = w ∧ tr = [] ∧
          (s'.bufDescTable.getD fid d0).pinCnt
            = (s.bufDescTable.getD fid d0).pinCnt - 1 ∧
          (s'.bufDescTable.getD fid d0).dirty
            = (if dirt then true else (s.bufDescTable.getD fid d0).dirty) ∧
          (∀ j, j ≠ fid → s'.bufDescTable.getD j d0 = s.bufDescTable.getD j d0) ∧
          s'.hashTable = s.hashTable ∧ s'.bufPool = s.bufPool)) := by
  simp only [unPinPage] at h
  split at h
  · rename_i hlk0
    simp only [Prod.mk.injEq] at h
    obtain ⟨rfl, rfl, rfl, rfl⟩ := h
    refine ⟨fun _ => ⟨rfl, rfl, rfl, rfl⟩, ?_⟩
    intro fid hlk'
    rw [hlk0] at hlk'
    cases hlk'
  · rename_i fid0 hlk0
    have hflen : fid0 < s.bufDescTable.length := hwf _ (hashLookup_mem hlk0)
    split at h
    · rename_i hpin0
      simp only [Prod.mk.injEq] at h
      obtain ⟨rfl, rfl, rfl, rfl⟩ := h
      refine ⟨?_, ?_⟩
      · intro hlkn
        rw [hlk0] at hlkn
        cases hlkn
      · intro fid hlk'
        rw [hlk0] at hlk'
        cases Option.some_injective _ hlk'
        exact ⟨fun _ => ⟨rfl, rfl, rfl, rfl⟩, fun hpin => absurd hpin0 hpin⟩
    · rename_i hpinne
      simp only [Prod.mk.injEq] at h
      obtain ⟨rfl, rfl, rfl, rfl⟩ := h
      refine ⟨?_, ?_⟩
      · intro hlkn
        rw [hlk0] at hlkn
        cases hlkn
      · intro fid hlk'
        rw [hlk0] at hlk'
        cases Option.some_injective _ hlk'
        refine ⟨fun hp0 => absurd hp0 hpinne, fun _ => ⟨rfl, rfl, rfl, ?_, ?_, ?_, rfl, rfl⟩⟩
        · cases dirt
          · simp only [Bool.false_eq_true, if_false]
            rw [getD_set_self _ _ _ _ hflen]
          · simp only [if_true]
            rw [getD_set_self _ _ _ _ hflen]
        · cases dirt
          · simp only [Bool.false_eq_true, if_false]
            rw [getD_set_self _ _ _ _ hflen]
          · simp only [if_true]
            rw [getD_set_self _ _ _ _ hflen]
        · intro j hj
          cases dirt
          · simp only [Bool.false_eq_true, if_false]
            exact getD_set_ne _ _ _ _ _ (fun hk => hj hk.symm)
          · simp only [if_true]
            exact getD_set_ne _ _ _ _ _ (fun hk => hj hk.symm)

/-- Witness for C6: a one-frame manager holding `(1, 4)` pinned twice,
unpinned with `dirty_flag = true`: the pin count drops to 1 and the dirty
bit is set. -/
theorem c6_witness :
    (c6s2.bufDescTable.getD 0 d0).pinCnt = (c6s.bufDescTable.getD 0 d0).pinCnt - 1 ∧
    (c6s2.bufDescTable.getD 0 d0).dirty = true := by
  have h := @c6_unPinPage_contract ⟨[]⟩ c6s 1 4 true (Except.ok ()) ⟨[]⟩ c6s2 []
    (by decide) (by rfl)
  have h2 := (h.2 0 (by rfl)).2 (by decide)
  refine ⟨h2.2.2.2.1, ?_⟩
  rw [h2.2.2.2.2.1]
  rfl

theorem hashConsistent_set_keep {s : St} (hcons : hashConsistent s) (i : Nat)
    (hilen : i < s.bufDescTable.length) (b' : BufDesc)
    (hfile : b'.file = (s.bufDescTable.getD i d0).file)
    (hpage : b'.pageNo = (s.bufDescTable.getD i d0).pageNo)
    (hvalid : b'.valid = (s.bufDescTable.getD i d0).valid) :
    hashConsistent { s with bufDescTable := s.bufDescTable.set i b' } := by
  obtain ⟨hmatch, hres, hnodup⟩ := hcons
  refine ⟨?_, ?_, hnodup⟩
  · intro e he
    simp only at he ⊢
    obtain ⟨h1, h2, h3, h4⟩ := hmatch e he
    by_cases hei : e.2 = i
    · rw [hei, getD_set_self _ _ _ _ hilen]
      rw [hei] at h1 h2 h3 h4
      exact ⟨h1, hvalid.trans h2, hfile.trans h3, hpage.trans h4⟩
    · rw [getD_set_ne _ _ _ _ _ (fun hh => hei hh.symm)]
      exact ⟨h1, h2, h3, h4⟩
  · intro j hj hv
    simp only at hj hv ⊢
    by_cases hji : j = i
    · subst hji
      rw [getD_set_self _ _ _ _ hilen] at hv ⊢
      rw [hvalid] at hv
      obtain ⟨hsome, hmem⟩ := hres j hj hv
      rw [hfile, hpage]
      exact ⟨hsome, hmem⟩
    · rw [getD_set_ne _ _ _ _ _ (fun hh => hji hh.symm)] at hv ⊢
      exact hres j hj hv

theorem hashConsistent_remove_clear {s : St} (hcons : hashConsistent s) (i : Nat)
    (hi : i < s.numBufs) (hilen : i < s.bufDescTable.length) {f : Nat} {b : BufDesc}
    (hb : s.bufDescTable.getD i d0 = b) (hv : b.valid = true) (hf : b.file = some f) :
    hashConsistent { s with
      hashTable := s.hashTable.filter (fun e => e.1 != (f, b.pageNo))
      bufDescTable := s.bufDescTable.set i b.Clear } := by
  subst hb
  obtain ⟨hmatch, hres, hnodup⟩ := hcons
  refine ⟨?_, ?_, ?_⟩
  · intro e he
    simp only at he ⊢
    obtain ⟨he1, hkey⟩ := mem_filter_keyne.mp he
    obtain ⟨h1, h2, h3, h4⟩ := hmatch e he1
    have hei : e.2 ≠ i := by
      intro hei
      rw [hei] at h3 h4
      rw [hf] at h3
      apply hkey
      have hfe : e.1.1 = f := by injection h3.symm
      cases e with
      | mk k v => cases k with
        | mk a bb =>
          simp only at hfe h4 ⊢
          rw [hfe, h4]
    rw [getD_set_ne _ _ _ _ _ (fun hh => hei hh.symm)]
    exact ⟨h1, h2, h3, h4⟩
  · intro j hj hvj
    simp only at hj hvj ⊢
    by_cases hji : j = i
    · subst hji
      rw [getD_set_self _ _ _ _ hilen] at hvj
      simp [BufDesc.Clear] at hvj
    · rw [getD_set_ne _ _ _ _ _ (fun hh => hji hh.symm)] at hvj ⊢
      obtain ⟨hsome, hmem⟩ := hres j hj hvj
      refine ⟨hsome, mem_filter_keyne.mpr ⟨hmem, ?_⟩⟩
      intro hkey
      obtain ⟨hsomei, hmemi⟩ := hres i hi hv
      have hkeyi : ((s.bufDescTable.getD i d0).file.getD 0) = f := by rw [hf]; rfl
      rw [hkeyi] at hmemi
      have hfp : ((s.bufDescTable.getD j d0).file.getD 0,
          (s.bufDescTable.getD j d0).pageNo)
          = (f, (s.bufDescTable.getD i d0).pageNo) := hkey
      rw [hfp] at hmem
      exact hji (nodupKeys_eq hnodup hmem hmemi)
  · exact (List.filter_sublist _).map Prod.fst |>.nodup hnodup

/-- Characterization of the `flushFile` scan: there is a cut-off index `j`
(the first failing frame, or `numBufs` on success); frames of the file
before `j` are cleaned in order, frames at or beyond `j` are untouched,
write-backs happen exactly for the dirty cleaned frames, and the outcome
names the failing frame. -/
theorem flushFileLoop_char {f : Nat} : ∀ (k : Nat) {i : Nat} {w : World} {s : St}
    {out : Except BufErr Unit} {w' : World} {s' : St} {tr : List Ev},
    s.bufDescTable.length = s.numBufs →
    hashConsistent s →
    i + k = s.numBufs →
    flushFileLoop f w s i k = (out, w', s', tr) →
    ∃ j, i ≤ j ∧ j ≤ s.numBufs ∧
      (∀ m, i ≤ m → m < j → (s.bufDescTable.getD m d0).file = some f →
          (s.bufDescTable.getD m d0).pinCnt = 0 ∧
          (s.bufDescTable.getD m d0).valid = true ∧
          s'.bufDescTable.getD m d0 = (s.bufDescTable.getD m d0).Clear ∧
          ((s.bufDescTable.getD m d0).dirty = true →
            Ev.writeP f (s.bufPool.getD m p0) ∈ tr) ∧
          hashLookup s'.hashTable f (s.bufDescTable.getD m d0).pageNo = none) ∧
      (∀ m, m < i ∨ j ≤ m ∨ (s.bufDescTable.getD m d0).file ≠ some f →
          s'.bufDescTable.getD m d0 = s.bufDescTable.getD m d0) ∧
      (∀ f' pg, Ev.writeP f' pg ∈ tr → f' = f ∧
          ∃ m, i ≤ m ∧ m < j ∧ (s.bufDescTable.getD m d0).file = some f ∧
            (s.bufDescTable.getD m d0).dirty = true ∧ pg = s.bufPool.getD m p0) ∧
      (∀ e ∈ s'.hashTable, e ∈ s.hashTable) ∧
      s'.bufPool = s.bufPool ∧
      (out = Except.ok () → j = s.numBufs) ∧
      (out = Except.error BufErr.pagePinned →
          j < s.numBufs ∧ (s.bufDescTable.getD j d0).file = some f ∧
          (s.bufDescTable.getD j d0).pinCnt ≠ 0) ∧
      (out = Except.error BufErr.badBuffer →
          j < s.numBufs ∧ (s.bufDescTable.getD j d0).file = some f ∧
          (s.bufDescTable.getD j d0).pinCnt = 0 ∧
          (s.bufDescTable.getD j d0).valid = false) := by
  intro k
  induction k with
  | zero =>
    intro i w s out w' s' tr hlen hcons hik h
    simp only [flushFileLoop, Prod.mk.injEq] at h
    obtain ⟨rfl, rfl, rfl, rfl⟩ := h
    refine ⟨i, Nat.le_refl i, by omega, ?_, ?_, ?_, fun e he => he, rfl, ?_, ?_, ?_⟩
    · intro m h1 h2 _
      omega
    · intro m _
      rfl
    · intro f' pg hmem
      simp at hmem
    · intro _
      omega
    · intro hcon
      cases hcon
    · intro hcon
      cases hcon
  | succ k ih =>
    intro i w s out w' s' tr hlen hcons hik h
    simp only [flushFileLoop] at h
    split at h
    · -- frame i belongs to the file
      rename_i hm
      split at h
      · -- pinned: abort with PagePinned
        rename_i hpin
        simp only [Prod.mk.injEq] at h
        obtain ⟨rfl, rfl, rfl, rfl⟩ := h
        refine ⟨i, Nat.le_refl i, by omega, ?_, ?_, ?_, fun e he => he, rfl, ?_, ?_, ?_⟩
        · intro m h1 h2 _
          omega
        · intro m _
          rfl
        · intro f' pg hmem
          simp at hmem
        · intro hcon
          cases hcon
        · intro _
          exact ⟨by omega, hm, hpin⟩
        · intro hcon
          simp at hcon
      · split at h
        · -- invalid: abort with BadBuffer
          rename_i hpin hval
          simp only [Prod.mk.injEq] at h
          obtain ⟨rfl, rfl, rfl, rfl⟩ := h
          refine ⟨i, Nat.le_refl i, by omega, ?_, ?_, ?_, fun e he => he, rfl, ?_, ?_, ?_⟩
          · intro m h1 h2 _
            omega
          · intro m _
            rfl
          · intro f' pg hmem
            simp at hmem
          · intro hcon
            cases hcon
          · intro hcon
            simp at hcon
          · intro _
            exact ⟨by omega, hm, by omega, hval⟩
        · -- frame i is processed
          rename_i hpin hval
          have hin : i < s.numBufs := by omega
          have hilen : i < s.bufDescTable.length := hlen ▸ hin
          have hv : (s.bufDescTable.getD i d0).valid = true := by
            cases hvb : (s.bufDescTable.getD i d0).valid
            · exact absurd hvb hval
            · rfl
          have hpin0 : (s.bufDescTable.getD i d0).pinCnt = 0 := by omega
          have hmemf : ((f, (s.bufDescTable.getD i d0).pageNo), i) ∈ s.hashTable := by
            obtain ⟨hsome, hmem⟩ := hcons.2.1 i hin hv
            rw [show ((s.bufDescTable.getD i d0).file.getD 0) = f from by
              rw [hm]; rfl] at hmem
            exact hmem
          by_cases hd : (s.bufDescTable.getD i d0).dirty = true
          · simp only [if_pos hd] at h
            split at h
            · rename_i hremN
              rw [hashRemove_of_mem hmemf] at hremN
              cases hremN
            · rename_i hh hrem
              have hrem' := hashRemove_eq_some hrem
              subst hrem'
              simp only [Prod.mk.injEq] at h
              obtain ⟨rfl, rfl, rfl, rfl⟩ := h
              -- facts about the one-step state
              have hcons1 : hashConsistent { s with
                  bufDescTable := s.bufDescTable.set i
                    { s.bufDescTable.getD i d0 with dirty := false } } :=
                hashConsistent_set_keep hcons i hilen _ rfl rfl rfl
              have hget1 : ((s.bufDescTable.set i
                  { s.bufDescTable.getD i d0 with dirty := false }).getD i d0)
                  = { s.bufDescTable.getD i d0 with dirty := false } :=
                getD_set_self _ _ _ _ hilen
              have hcons2 := hashConsistent_remove_clear hcons1 i hin
                (by simpa using hilen) hget1 hv hm
              obtain ⟨j, j1, j2, C1, C2, C3, C4, C5, C6, C7, C8⟩ :=
                ih (by simpa using hlen) hcons2 (show i + 1 + k = s.numBufs by omega) rfl
              have hgi : ∀ m, m ≠ i →
                  ((s.bufDescTable.set i
                      { s.bufDescTable.getD i d0 with dirty := false }).set i
                    (s.bufDescTable.getD i d0).Clear).getD m d0
                  = s.bufDescTable.getD m d0 := by
                intro m hmi
                rw [getD_set_ne _ _ _ _ _ (fun hk => hmi hk.symm),
                  getD_set_ne _ _ _ _ _ (fun hk => hmi hk.symm)]
              have hgii : ((s.bufDescTable.set i
                    { s.bufDescTable.getD i d0 with dirty := false }).set i
                  (s.bufDescTable.getD i d0).Clear).getD i d0
                  = (s.bufDescTable.getD i d0).Clear :=
                getD_set_self _ _ _ _ (by simpa using hilen)
              refine ⟨j, by omega, j2, ?_, ?_, ?_, ?_, C5, ?_, ?_, ?_⟩
              · -- cleaned frames
                intro m hm1 hm2 hmf
                by_cases hmi : m = i
                · subst hmi
                  refine ⟨hpin0, hv, ?_, ?_, ?_⟩
                  · exact (C2 m (Or.inl (by omega))).trans hgii
                  · intro _
                    simp only [List.singleton_append, List.mem_cons]
                    exact Or.inl trivial
                  · have hlkn : hashLookup (List.filter
                        (fun e => e.1 != (f, (s.bufDescTable.getD m d0).pageNo))
                        s.hashTable) f (s.bufDescTable.getD m d0).pageNo = none :=
                      hashLookup_filter_self
                    exact hashLookup_none_of_subset C4 hlkn
                · have hgm := hgi m hmi
                  obtain ⟨d1, d2, d3, d4, d5⟩ := C1 m (by omega) hm2
                    ((congrArg BufDesc.file hgm).trans hmf)
                  refine ⟨(congrArg BufDesc.pinCnt hgm).symm.trans d1,
                    (congrArg BufDesc.valid hgm).symm.trans d2,
                    d3.trans (congrArg BufDesc.Clear hgm), ?_, ?_⟩
                  · intro hdm
                    have := d4 ((congrArg BufDesc.dirty hgm).trans hdm)
                    simp only [List.singleton_append, List.mem_cons]
                    right
                    right
                    exact this
                  · rw [← congrArg BufDesc.pageNo hgm]
                    exact d5
              · -- untouched frames
                intro m hcase
                by_cases hmi : m = i
                · subst hmi
                  rcases hcase with hc | hc | hc
                  · omega
                  · omega
                  · exact absurd hm hc
                · refine (C2 m ?_).trans (hgi m hmi)
                  rcases hcase with hc | hc | hc
                  · exact Or.inl (by omega)
                  · exact Or.inr (Or.inl hc)
                  · exact Or.inr (Or.inr
                      (fun hcon => hc ((congrArg BufDesc.file (hgi m hmi)).symm.trans hcon)))
              · -- write events
                intro f' pg hmem
                simp only [List.singleton_append, List.mem_cons] at hmem
                rcases hmem with hmem | hmem | hmem
                · injection hmem with hf' hpg
                  subst hf'
                  exact ⟨rfl, i, Nat.le_refl i, by omega, hm, hd, hpg⟩
                · cases hmem
                · obtain ⟨hf', m, m1, m2, m3, m4, m5⟩ := C3 f' pg hmem
                  have hmi : m ≠ i := by omega
                  exact ⟨hf', m, by omega, m2,
                    (congrArg BufDesc.file (hgi m hmi)).symm.trans m3,
                    (congrArg BufDesc.dirty (hgi m hmi)).symm.trans m4, m5⟩
              · -- hash entries only removed
                intro e he
                have := C4 e he
                exact (mem_filter_keyne.mp this).1
              · -- success reaches the end
                intro hok
                exact C6 hok
              · -- PagePinned names frame j
                intro hpp
                obtain ⟨p1, p2, p3⟩ := C7 hpp
                have hji : j ≠ i := by omega
                exact ⟨p1, (congrArg BufDesc.file (hgi j hji)).symm.trans p2,
                  fun hc => p3 ((congrArg BufDesc.pinCnt (hgi j hji)).trans hc)⟩
              · -- BadBuffer names frame j
                intro hbb
                obtain ⟨p1, p2, p3, p4⟩ := C8 hbb
                have hji : j ≠ i := by omega
                exact ⟨p1, (congrArg BufDesc.file (hgi j hji)).symm.trans p2,
                  (congrArg BufDesc.pinCnt (hgi j hji)).symm.trans p3,
                  (congrArg BufDesc.valid (hgi j hji)).symm.trans p4⟩
          · simp only [if_neg hd] at h
            split at h
            · rename_i hremN
              rw [hashRemove_of_mem hmemf] at hremN
              cases hremN
            · rename_i hh hrem
              have hrem' := hashRemove_eq_some hrem
              subst hrem'
              simp only [Prod.mk.injEq] at h
              obtain ⟨rfl, rfl, rfl, rfl⟩ := h
              have hcons2 := hashConsistent_remove_clear hcons i hin hilen rfl hv hm
              obtain ⟨j, j1, j2, C1, C2, C3, C4, C5, C6, C7, C8⟩ :=
                ih (by simpa using hlen) hcons2 (show i + 1 + k = s.numBufs by omega) rfl
              have hgi : ∀ m, m ≠ i →
                  (s.bufDescTable.set i (s.bufDescTable.getD i d0).Clear).getD m d0
                  = s.bufDescTable.getD m d0 := by
                intro m hmi
                rw [getD_set_ne _ _ _ _ _ (fun hk => hmi hk.symm)]
              have hgii : (s.bufDescTable.set i
                  (s.bufDescTable.getD i d0).Clear).getD i d0
                  = (s.bufDescTable.getD i d0).Clear :=
                getD_set_self _ _ _ _ hilen
              refine ⟨j, by omega, j2, ?_, ?_, ?_, ?_, C5, ?_, ?_, ?_⟩
              · intro m hm1 hm2 hmf
                by_cases hmi : m = i
                · subst hmi
                  refine ⟨hpin0, hv, ?_, fun hdm => absurd hdm hd, ?_⟩
                  · exact (C2 m (Or.inl (by omega))).trans hgii
                  · have hlkn : hashLookup (List.filter
                        (fun e => e.1 != (f, (s.bufDescTable.getD m d0).pageNo))
                        s.hashTable) f (s.bufDescTable.getD m d0).pageNo = none :=
                      hashLookup_filter_self
                    exact hashLookup_none_of_subset C4 hlkn
                · have hgm := hgi m hmi
                  obtain ⟨d1, d2, d3, d4, d5⟩ := C1 m (by omega) hm2
                    ((congrArg BufDesc.file hgm).trans hmf)
                  refine ⟨(congrArg BufDesc.pinCnt hgm).symm.trans d1,
                    (congrArg BufDesc.valid hgm).symm.trans d2,
                    d3.trans (congrArg BufDesc.Clear hgm), ?_, ?_⟩
                  · intro hdm
                    have := d4 ((congrArg BufDesc.dirty hgm).trans hdm)
                    simp only [List.nil_append, List.mem_cons]
                    right
                    exact this
                  · rw [← congrArg BufDesc.pageNo hgm]
                    exact d5
              · intro m hcase
                by_cases hmi : m = i
                · subst hmi
                  rcases hcase with hc | hc | hc
                  · omega
                  · omega
                  · exact absurd hm hc
                · refine (C2 m ?_).trans (hgi m hmi)
                  rcases hcase with hc | hc | hc
                  · exact Or.inl (by omega)
                  · exact Or.inr (Or.inl hc)
                  · exact Or.inr (Or.inr
                      (fun hcon => hc ((congrArg BufDesc.file (hgi m hmi)).symm.trans hcon)))
              · intro f' pg hmem
                simp only [List.nil_append, List.mem_cons] at hmem
                rcases hmem with hmem | hmem
                · cases hmem
                · obtain ⟨hf', m, m1, m2, m3, m4, m5⟩ := C3 f' pg hmem
                  have hmi : m ≠ i := by omega
                  exact ⟨hf', m, by omega, m2,
                    (congrArg BufDesc.file (hgi m hmi)).symm.trans m3,
                    (congrArg BufDesc.dirty (hgi m hmi)).symm.trans m4, m5⟩
              · intro e he
                have := C4 e he
                exact (mem_filter_keyne.mp this).1
              · intro hok
                exact C6 hok
              · intro hpp
                obtain ⟨p1, p2, p3⟩ := C7 hpp
                have hji : j ≠ i := by omega
                exact ⟨p1, (congrArg BufDesc.file (hgi j hji)).symm.trans p2,
                  fun hc => p3 ((congrArg BufDesc.pinCnt (hgi j hji)).trans hc)⟩
              · intro hbb
                obtain ⟨p1, p2, p3, p4⟩ := C8 hbb
                have hji : j ≠ i := by omega
                exact ⟨p1, (congrArg BufDesc.file (hgi j hji)).symm.trans p2,
                  (congrArg BufDesc.pinCnt (hgi j hji)).symm.trans p3,
                  (congrArg BufDesc.valid (hgi j hji)).symm.trans p4⟩
    · -- frame i does not belong to the file: skip
      rename_i hnm
      obtain ⟨j, j1, j2, C1, C2, C3, C4, C5, C6, C7, C8⟩ :=
        ih hlen hcons (by omega) h
      refine ⟨j, by omega, j2, ?_, ?_, ?_, C4, C5, C6, C7, C8⟩
      · intro m hm1 hm2 hmf
        by_cases hmi : m = i
        · subst hmi
          exact absurd hmf hnm
        · exact C1 m (by omega) hm2 hmf
      · intro m hcase
        by_cases hmi : m = i
        · subst hmi
          exact C2 m (Or.inr (Or.inr hnm))
        · rcases hcase with hc | hc | hc
          · exact C2 m (Or.inl (by omega))
          · exact C2 m (Or.inr (Or.inl hc))
          · exact C2 m (Or.inr (Or.inr hc))
      · intro f' pg hmem
        obtain ⟨hf', m, m1, m2, m3, m4, m5⟩ := C3 f' pg hmem
        exact ⟨hf', m, by omega, m2, m3, m4, m5⟩

/-- C7: `flushFile` scans the frames in order.  There is a cut-off `j`
(the first failing frame, `numBufs` on success): every frame of the file
before `j` was unpinned and valid and is now cleaned — written back iff it
was dirty (`Ev.writeP` of its bytes is in the trace exactly for the dirty
ones), hash entry removed, frame cleared — while every frame at or beyond
`j` is untouched (the scan aborts immediately, and frames already cleaned
stay cleaned: no rollback).  `PagePinned` is raised iff frame `j` of the
file is pinned, `BadBuffer` iff frame `j` of the file is unpinned but
invalid. -/
theorem c7_flushFile_contract {w : World} {s : St} {f : Nat}
    {out : Except BufErr Unit} {w' : World} {s' : St} {tr : List Ev}
    (hlen : s.bufDescTable.length = s.numBufs)
    (hcons : hashConsistent s)
    (h : flushFile w s f = (out, w', s', tr)) :
    ∃ j, j ≤ s.numBufs ∧
      (∀ m, m < j → (s.bufDescTable.getD m d0).file = some f →
          (s.bufDescTable.getD m d0).pinCnt = 0 ∧
          (s.bufDescTable.getD m d0).valid = true ∧
          s'.bufDescTable.getD m d0 = (s.bufDescTable.getD m d0).Clear ∧
          ((s.bufDescTable.getD m d0).dirty = true →
            Ev.writeP f (s.bufPool.getD m p0) ∈ tr) ∧
          hashLookup s'.hashTable f (s.bufDescTable.getD m d0).pageNo = none) ∧
      (∀ m, j ≤ m ∨ (s.bufDescTable.getD m d0).file ≠ some f →
          s'.bufDescTable.getD m d0 = s.bufDescTable.getD m d0) ∧
      (∀ f' pg, Ev.writeP f' pg ∈ tr → f' = f ∧
          ∃ m, m < j ∧ (s.bufDescTable.getD m d0).file = some f ∧
            (s.bufDescTable.getD m d0).dirty = true ∧ pg = s.bufPool.getD m p0) ∧
      (out = Except.ok () → j = s.numBufs) ∧
      (out = Except.error BufErr.pagePinned → j < s.numBufs ∧
          (s.bufDescTable.getD j d0).file = some f ∧
          (s.bufDescTable.getD j d0).pinCnt ≠ 0) ∧
      (out = Except.error BufErr.badBuffer → j < s.numBufs ∧
          (s.bufDescTable.getD j d0).file = some f ∧
          (s.bufDescTable.getD j d0).pinCnt = 0 ∧
          (s.bufDescTable.getD j d0).valid = false) := by
  obtain ⟨j, j1, j2, C1, C2, C3, C4, C5, C6, C7, C8⟩ :=
    flushFileLoop_char s.numBufs hlen hcons (Nat.zero_add _) h
  refine ⟨j, j2, ?_, ?_, ?_, C6, C7, C8⟩
  · intro m hm2 hmf
    exact C1 m (Nat.zero_le m) hm2 hmf
  · intro m hc
    rcases hc with hc | hc
    · exact C2 m (Or.inr (Or.inl hc))
    · exact C2 m (Or.inr (Or.inr hc))
  · intro f' pg hmem
    obtain ⟨hf', m, _, m2, m3, m4, m5⟩ := C3 f' pg hmem
    exact ⟨hf', m, m2, m3, m4, m5⟩

/-- Witness for C7: flushing file 1 on a two-frame manager holding its
dirty page `(1, 4)` and clean page `(1, 5)`: the scan succeeds, frame 0 is
cleared, and the dirty page's bytes were written back. -/
theorem c7_witness :
    (c7s2.bufDescTable.getD 0 d0).valid = false ∧
    Ev.writeP 1 ⟨4, 9⟩
      ∈ ([Ev.writeP 1 ⟨4, 9⟩, Ev.hRemove 1 4, Ev.hRemove 1 5] : List Ev) := by
  have h := @c7_flushFile_contract c7w c7s 1 (Except.ok ()) c7w2 c7s2
    [Ev.writeP 1 ⟨4, 9⟩, Ev.hRemove 1 4, Ev.hRemove 1 5]
    (by decide) (by unfold hashConsistent; decide) (by rfl)
  obtain ⟨j, j2, C1, C2, C3, C6, C7, C8⟩ := h
  have hj : j = c7s.numBufs := C6 rfl
  have h0 := C1 0 (by rw [hj]; decide) (by decide)
  refine ⟨?_, h0.2.2.2.1 (by decide)⟩
  rw [h0.2.2.1]
  decide

/-- C9: `disposePage` on a page resident in a frame with `pin_count > 0`
still removes the hash entry and clears the frame (resetting `pin_count`
to 0) without raising any error and without write-back — the pin count is
never consulted, so outstanding caller references lose their
protection. -/
theorem c9_disposePage_pinned {w : World} {s : St} {f pid fid : Nat}
    {out : Except BufErr Unit} {w' : World} {s' : St} {tr : List Ev}
    (hfid : hashLookup s.hashTable f pid = some fid)
    (hflen : fid < s.bufDescTable.length)
    (hpin : (s.bufDescTable.getD fid d0).pinCnt ≠ 0)
    (h : disposePage w s f pid = (out, w', s', tr)) :
    out = Except.ok () ∧
    hashLookup s'.hashTable f pid = none ∧
    s'.bufDescTable.getD fid d0 = (s.bufDescTable.getD fid d0).Clear ∧
    (s'.bufDescTable.getD fid d0).pinCnt = 0 ∧
    tr = [Ev.hRemove f pid, Ev.deleteP f pid] ∧
    (∀ f' pg, Ev.writeP f' pg ∉ tr) ∧
    w' = w.deletePageF f pid := by
  have hrem := hashRemove_of_mem (hashLookup_mem hfid)
  simp only [disposePage, hfid, hrem] at h
  simp only [Prod.mk.injEq] at h
  obtain ⟨rfl, rfl, rfl, rfl⟩ := h
  refine ⟨rfl, hashLookup_filter_self, getD_set_self _ _ _ _ hflen, ?_, rfl, ?_, rfl⟩
  · rw [getD_set_self _ _ _ _ hflen]
    simp [BufDesc.Clear]
  · intro f' pg hmem
    simp at hmem

/-- Witness for C9: a one-frame manager holding `(2, 6)` pinned three
times; disposal still empties the hash index and resets the pin count. -/
theorem c9_witness :
    (c9s.bufDescTable.getD 0 d0).pinCnt ≠ 0 ∧
    hashLookup c9s2.hashTable 2 6 = none ∧
    (c9s2.bufDescTable.getD 0 d0).pinCnt = 0 := by
  have h := @c9_disposePage_pinned c9w c9s 2 6 0 (Except.ok ()) ⟨[]⟩ c9s2
    [Ev.hRemove 2 6, Ev.deleteP 2 6]
    (by rfl) (by decide) (by decide) (by rfl)
  exact ⟨by decide, h.2.1, h.2.2.2.1⟩

/-- C8: after `disposePage(file, page_id)` returns, no frame is resident
for `(file, page_id)`, `file.delete_page` has been invoked exactly once,
no `write_page` call was made for the disposed page even if its frame was
dirty, and when the page was resident the hash-index removal strictly
precedes the `delete_page` call (trace order). -/
theorem c8_disposePage_contract {w : World} {s : St} {f pid : Nat}
    {out : Except BufErr Unit} {w' : World} {s' : St} {tr : List Ev}
    (hlen : s.bufDescTable.length = s.numBufs)
    (hcons : hashConsistent s)
    (h : disposePage w s f pid = (out, w', s', tr)) :
    out = Except.ok () ∧
    ¬ resident s' f pid ∧
    w' = w.deletePageF f pid ∧
    tr.count (Ev.deleteP f pid) = 1 ∧
    (∀ f' pg, Ev.writeP f' pg ∉ tr) ∧
    (hashLookup s.hashTable f pid ≠ none → tr = [Ev.hRemove f pid, Ev.deleteP f pid]) ∧
    (hashLookup s.hashTable f pid = none → tr = [Ev.deleteP f pid]) := by
  obtain ⟨hmatch, hres, hnodup⟩ := hcons
  simp only [disposePage] at h
  split at h
  · rename_i fid hlk
    obtain ⟨hfidn, hfidv, hfidf, hfidp⟩ := hmatch _ (hashLookup_mem hlk)
    have hrem := hashRemove_of_mem (hashLookup_mem hlk)
    rw [hrem] at h
    simp only [Prod.mk.injEq] at h
    obtain ⟨rfl, rfl, rfl, rfl⟩ := h
    refine ⟨rfl, ?_, rfl, by simp, ?_, fun _ => rfl, fun hn => absurd hn (by rw [hlk]; simp)⟩
    · rintro ⟨j, hj, hvj, hfj, hpj⟩
      by_cases hjf : j = fid
      · subst hjf
        rw [getD_set_self _ _ _ _ (hlen ▸ hfidn)] at hvj
        simp [BufDesc.Clear] at hvj
      · rw [getD_set_ne _ _ _ _ _ (fun hk => hjf hk.symm)] at hvj hfj hpj
        obtain ⟨hsj, hmj⟩ := hres j hj hvj
        rw [show ((s.bufDescTable.getD j d0).file.getD 0) = f from by rw [hfj]; rfl,
          hpj] at hmj
        exact hjf (nodupKeys_eq hnodup hmj (hashLookup_mem hlk))
    · intro f' pg hmem
      simp at hmem
  · rename_i hlk
    simp only [Prod.mk.injEq] at h
    obtain ⟨rfl, rfl, rfl, rfl⟩ := h
    refine ⟨rfl, ?_, rfl, by simp, ?_, fun hn => absurd hlk hn, fun _ => rfl⟩
    · rintro ⟨j, hj, hvj, hfj, hpj⟩
      obtain ⟨hsj, hmj⟩ := hres j hj hvj
      rw [show ((s.bufDescTable.getD j d0).file.getD 0) = f from by rw [hfj]; rfl,
        hpj] at hmj
      rw [hashLookup_of_mem_nodup hnodup hmj] at hlk
      cases hlk
    · intro f' pg hmem
      simp at hmem

/-- Witness for C8: disposing the resident page `(2, 6)`: afterwards no
frame is resident for it, exactly one `delete_page` call was made, no
write-back occurred, and the hash removal preceded the deletion. -/
theorem c8_witness :
    ¬ resident c9s2 2 6 ∧
    ([Ev.hRemove 2 6, Ev.deleteP 2 6] : List Ev).count (Ev.deleteP 2 6) = 1 := by
  have h := @c8_disposePage_contract c9w c9s 2 6 (Except.ok ()) ⟨[]⟩ c9s2
    [Ev.hRemove 2 6, Ev.deleteP 2 6]
    (by decide) (by unfold hashConsistent; decide) (by rfl)
  exact ⟨h.2.1, h.2.2.2.1⟩

/-- C5 (refuted as stated): `allocPage` calls `file.allocatePage` strictly
before `allocBuf`, so when `BufferExceeded` is raised the backing file has
already gained a freshly allocated page: the file is not "left as it was
before the call". -/
theorem c5_counterexample :
    allocPage c5w c5s 0 9
      = some (Except.error BufErr.bufferExceeded, c5w', c5s, [Ev.allocP 0 2]) ∧
    c5w' ≠ c5w := ⟨by rfl, by decide⟩

/-- C5 (amended): when `BufferExceeded` is raised, the frame table (up to
transiently cleared ref bits), buffer pool and hash index are unchanged;
for `readPage` the backing file is also unchanged and no file call was
made, but `allocPage` has already allocated one new page in the file
before the failure (its only trace event). -/
theorem c5_amended_buffer_exceeded_no_effect
    {w1 : World} {s1 : St} {f1 pid1 fuel1 : Nat} {w1' : World} {s1' : St} {tr1 : List Ev}
    {w2 : World} {s2 : St} {f2 fuel2 : Nat} {w2' : World} {s2' : St} {tr2 : List Ev} :
    (readPage w1 s1 f1 pid1 fuel1
        = some (Except.error BufErr.bufferExceeded, w1', s1', tr1) →
        w1' = w1 ∧ s1'.hashTable = s1.hashTable ∧ s1'.bufPool = s1.bufPool ∧
        s1'.numBufs = s1.numBufs ∧
        s1'.bufDescTable.map eraseRef = s1.bufDescTable.map eraseRef ∧ tr1 = []) ∧
    (allocPage w2 s2 f2 fuel2
        = some (Except.error BufErr.bufferExceeded, w2', s2', tr2) →
        w2' = (w2.allocatePageF f2).2 ∧ s2'.hashTable = s2.hashTable ∧
        s2'.bufPool = s2.bufPool ∧ s2'.numBufs = s2.numBufs ∧
        s2'.bufDescTable.map eraseRef = s2.bufDescTable.map eraseRef ∧
        tr2 = [Ev.allocP f2 (w2.allocatePageF f2).1.pageNo]) := by
  constructor
  · intro h
    simp only [readPage] at h
    split at h
    · simp at h
    · split at h
      · cases h
      · rename_i e wa sa tra hab
        simp only [Option.some.injEq, Prod.mk.injEq, Except.error.injEq] at h
        obtain ⟨he, rfl, rfl, rfl⟩ := h
        subst he
        obtain ⟨x1, x2, x3, x4, x5, x6⟩ := allocBufLoop_exceeded fuel1 hab
        exact ⟨x1, x4, x3, x2, x6, x5⟩
      · split at h
        · simp at h
        · simp at h
  · intro h
    simp only [allocPage] at h
    split at h
    · cases h
    · rename_i e wa sa tra hab
      simp only [Option.some.injEq, Prod.mk.injEq, Except.error.injEq] at h
      obtain ⟨he, rfl, rfl, rfl⟩ := h
      subst he
      obtain ⟨x1, x2, x3, x4, x5, x6⟩ := allocBufLoop_exceeded fuel2 hab
      refine ⟨x1, x4, x3, x2, x6, ?_⟩
      rw [x5]
    · simp at h

/-- Witness for C5 (amended): the pinned one-frame manager: `readPage` of
an absent page leaves the file untouched, while `allocPage` leaves the
file with the freshly allocated page 2. -/
theorem c5_witness :
    c5w = c5w ∧ c5w' = (c5w.allocatePageF 0).2 := by
  have h := @c5_amended_buffer_exceeded_no_effect
    c5w c5s 0 2 9 c5w c5s []
    c5w c5s 0 9 c5w' c5s [Ev.allocP 0 2]
  exact ⟨(h.1 (by rfl)).1, (h.2 (by rfl)).1⟩

/-- C1 (refuted — code bug): the claim says `alloc_buf` raises
`BufferExceeded` only when every frame is pinned.  After the reachable
call sequence `c1ops` on a 3-frame manager, frame 2 is valid with
`pin_count = 0` (and `ref_bit` set), yet `readPage` of page 3 raises
`BufferExceeded`: the `pinned` counter accumulates a second observation of
frame 0 after the ref-bit-clearing detour through frame 2, reaching
`numBufs` although only two frames are pinned. -/
theorem c1_spurious_buffer_exceeded :
    (runOps 20 (c1w, initSt 3) c1ops).map
      (fun p => ((readPage p.1 p.2 0 3 20).map (fun r => r.1),
        (p.2.bufDescTable.getD 2 d0).valid, (p.2.bufDescTable.getD 2 d0).pinCnt))
    = some (some (Except.error BufErr.bufferExceeded), true, 0) := by rfl

/-- C2: in every state reachable through the public API from a freshly
constructed manager (with at least one frame): every frame's `frame_no`
equals its index, `dirty` implies `valid`, `pin_count > 0` implies
`valid`; every hash entry refers to a valid frame whose `file` and
`page_id` match the key; and no two frames are resident for the same
`(file, page_id)`. -/
theorem c2_reachable_public_invariants {w0 : World} {n : Nat} {w : World} {s : St}
    (hn : 0 < n) (hr : Reachable w0 n (w, s)) : publicInv s := by
  obtain ⟨hlen, hpool, hch, hfr, ⟨hmatch, hres, hnodup⟩, hdisk⟩ := inv_reachable hn hr
  refine ⟨hfr, hmatch, ?_⟩
  intro i hi j hj hcon
  obtain ⟨hvi, hvj, hfe, hpe⟩ := hcon
  obtain ⟨hsi, hmi⟩ := hres i hi hvi
  obtain ⟨hsj, hmj⟩ := hres j hj hvj
  have hk : ((s.bufDescTable.getD i d0).file.getD 0, (s.bufDescTable.getD i d0).pageNo)
      = ((s.bufDescTable.getD j d0).file.getD 0, (s.bufDescTable.getD j d0).pageNo) := by
    rw [hfe, hpe]
  rw [hk] at hmi
  exact nodupKeys_eq hnodup hmi hmj

/-- Witness for C2: the hypotheses hold for the freshly constructed
one-frame manager, and the invariants are verified there. -/
theorem c2_witness : 0 < 1 ∧ publicInv (initSt 1) :=
  ⟨Nat.one_pos,
    @c2_reachable_public_invariants ⟨[]⟩ 1 ⟨[]⟩ (initSt 1)
      Nat.one_pos Relation.ReflTransGen.refl⟩

end BadgerDB
